import Mathlib

/-!
# mgo: a Markov-chain text generator

A shallow embedding of `src/mgo.go` and the properties of its tokenizers,
transition-table builder and generator.

Conventions of the embedding

* A Go `string` is an immutable sequence of bytes (`GoString`).  Ranging over a
  string decodes UTF-8 (`runes`), and `string(r)` for a rune `r` encodes it
  (`encodeRune`); both follow the Go language specification.
* A Go `map[string][]string` is a finite map from byte strings to lists of byte
  strings (`Ngram`).  Slices are modelled by their contents (value semantics):
  the value slices of a table do not share backing arrays, which holds for
  every table made by `NewMarkovGenerator`, `BuildNgrams` and `ReadNgrams`.
  The table of a model is a non-nil map, as `NewMarkovGenerator` makes it.
* A run of Go code ends in a value, in a run-time panic, or in `log.Fatal`
  (which exits the process); a loop that may run forever is given fuel, and
  running out of fuel is a `Fault` of its own.
* `math/rand` and the iteration order of a map are inputs of the embedding.
* `encoding/gob` and the file system of package `os` are not part of the
  source; the section on persistence models them and says from what.
-/

namespace Mgo

/-! ## Strings, runes and faults -/

/-- A byte of a Go string. -/
abbrev Byte := Fin 256

/-- A Go `string`: a sequence of bytes. -/
abbrev GoString := List Byte

/-- The ways a run of the program ends without a value. -/
inductive Fault where
  /-- run-time panic: slice bounds out of range -/
  | sliceBounds
  /-- run-time panic: `rand.Intn` called with a non-positive argument -/
  | intnArgument
  /-- the explicit `panic("Unimplemented")` -/
  | unimplemented
  /-- the call `log.Fatal` or `log.Fatalf`, which prints and exits the process with status 1 -/
  | fatalExit
  /-- the loop did not finish within the given number of iterations -/
  | outOfFuel
  deriving DecidableEq, Repr

deriving instance DecidableEq for Except

/-- The Unicode replacement character, Go's `utf8.RuneError`. -/
def runeError : Nat := 0xFFFD

/-- Continuation byte of a UTF-8 sequence: `0x80 ..= 0xBF`. -/
def isCont (b : Byte) : Bool := decide (0x80 ≤ b.val) && decide (b.val ≤ 0xBF)

/-- Payload of a continuation byte: `b & 0x3F`. -/
def contBits (b : Byte) : Nat := b.val % 64

/-- Go's `utf8.DecodeRuneInString`: the first rune of `s` and its width in
bytes.  An invalid or incomplete encoding gives `(runeError, 1)`; the empty
string gives `(runeError, 0)`. -/
def decodeRune : GoString → Nat × Nat
  | [] => (runeError, 0)
  | b0 :: rest =>
    if b0.val < 0x80 then (b0.val, 1)
    else if 0xC2 ≤ b0.val ∧ b0.val ≤ 0xDF then
      match rest with
      | b1 :: _ =>
        if isCont b1 then ((b0.val % 32) * 64 + contBits b1, 2) else (runeError, 1)
      | _ => (runeError, 1)
    else if 0xE0 ≤ b0.val ∧ b0.val ≤ 0xEF then
      match rest with
      | b1 :: b2 :: _ =>
        let lo := if b0.val = 0xE0 then 0xA0 else 0x80
        let hi := if b0.val = 0xED then 0x9F else 0xBF
        if lo ≤ b1.val ∧ b1.val ≤ hi ∧ isCont b2 then
          ((b0.val % 16) * 4096 + contBits b1 * 64 + contBits b2, 3)
        else (runeError, 1)
      | _ => (runeError, 1)
    else if 0xF0 ≤ b0.val ∧ b0.val ≤ 0xF4 then
      match rest with
      | b1 :: b2 :: b3 :: _ =>
        let lo := if b0.val = 0xF0 then 0x90 else 0x80
        let hi := if b0.val = 0xF4 then 0x8F else 0xBF
        if lo ≤ b1.val ∧ b1.val ≤ hi ∧ isCont b2 ∧ isCont b3 then
          ((b0.val % 8) * 262144 + contBits b1 * 4096 + contBits b2 * 64 + contBits b3, 4)
        else (runeError, 1)
      | _ => (runeError, 1)
    else (runeError, 1)

/-- The runes that `for _, char := range s` visits, at most `fuel` of them:
each step decodes one rune and advances by its width (one byte after an
invalid encoding). -/
def runesFuel : Nat → GoString → List Nat
  | 0, _ => []
  | _, [] => []
  | fuel + 1, b :: rest =>
    let d := decodeRune (b :: rest)
    d.1 :: runesFuel fuel ((b :: rest).drop d.2)

/-- The runes that `for _, char := range s` visits.  Every step consumes at
least one byte, so `s.length` steps are enough. -/
def runes (s : GoString) : List Nat := runesFuel s.length s

/-- Go's conversion `string(r)` of a rune to its UTF-8 encoding; a surrogate
or a value above `0x10FFFF` becomes the encoding of `runeError`.  The shifts
and masks of `utf8.AppendRune` are written as divisions and remainders. -/
def encodeRune (r : Nat) : GoString :=
  if r < 0x80 then [Fin.ofNat r]
  else if r < 0x800 then [Fin.ofNat (0xC0 + r / 64), Fin.ofNat (0x80 + r % 64)]
  else if (0xD800 ≤ r ∧ r ≤ 0xDFFF) ∨ 0x10FFFF < r then [0xEF, 0xBF, 0xBD]
  else if r < 0x10000 then
    [Fin.ofNat (0xE0 + r / 4096), Fin.ofNat (0x80 + r / 64 % 64), Fin.ofNat (0x80 + r % 64)]
  else
    [Fin.ofNat (0xF0 + r / 262144), Fin.ofNat (0x80 + r / 4096 % 64),
      Fin.ofNat (0x80 + r / 64 % 64), Fin.ofNat (0x80 + r % 64)]

/-- A Go string literal: the UTF-8 encoding of its characters. -/
def str (s : String) : GoString := s.toList.flatMap (fun c => encodeRune c.toNat)

/-- The space character `' '`. -/
def spaceRune : Nat := 0x20

/-- The newline character `'\n'`. -/
def newlineRune : Nat := 0x0A

/-! ## Tokenizers -/

/-- The body of the loop of `splitKeepSpaces`, run over the runes of the text:
the state is `(result, word)`. -/
def splitKeepSpacesLoop : List Nat → List GoString → GoString → List GoString × GoString
  | [], result, word => (result, word)
  | char :: rest, result, word =>
    if char = spaceRune ∨ char = newlineRune then
      let result1 := if word ≠ [] then result ++ [word] else result
      let word1 : GoString := if word ≠ [] then [] else word
      splitKeepSpacesLoop rest (result1 ++ [encodeRune char]) word1
    else
      splitKeepSpacesLoop rest result (word ++ encodeRune char)

/-- Go `splitKeepSpaces`: the words, spaces and newlines of the text. -/
def splitKeepSpaces (s : GoString) : List GoString :=
  let st := splitKeepSpacesLoop (runes s) [] []
  if st.2 ≠ [] then st.1 ++ [st.2] else st.1

/-- The slice expression `s[i:end]` on a string, when `0 ≤ i ≤ end ≤ len(s)`. -/
def sliceStr (s : GoString) (i e : Nat) : GoString := (s.drop i).take (e - i)

/-- The loop of `splitByNCharacters` from the state `(i, result)`, for at most
`fuel` iterations.  `s[i:end]` panics unless `0 ≤ i ≤ end ≤ len(s)`.  Indices
are unbounded integers: `i + N` stays below `2 * len(s)` whenever `i > 0`, far
from the limit of a 64-bit `int`. -/
def splitByNCharactersLoop (s : GoString) (N : Int) :
    Nat → Int → List GoString → Except Fault (List GoString)
  | 0, _, _ => .error .outOfFuel
  | fuel + 1, i, result =>
    if i < (s.length : Int) then
      let end0 := i + N
      let end1 := if end0 > (s.length : Int) then (s.length : Int) else end0
      if 0 ≤ i ∧ i ≤ end1 ∧ end1 ≤ (s.length : Int) then
        splitByNCharactersLoop s N fuel (i + N) (result ++ [sliceStr s i.toNat end1.toNat])
      else .error .sliceBounds
    else .ok result

/-- Go `splitByNCharacters`, with a bound `fuel` on the iterations of its loop. -/
def splitByNCharacters (fuel : Nat) (s : GoString) (N : Int) : Except Fault (List GoString) :=
  splitByNCharactersLoop s N fuel 0 []

/-! ## The transition table and its builder -/

/-- Go `type Ngram = map[string][]string`. -/
abbrev Ngram := Finmap (fun _ : GoString => List GoString)

/-- The index expression `m[k]`: the stored slice, or the nil slice (no
elements) when `k` is not a key. -/
def Ngram.at (m : Ngram) (k : GoString) : List GoString := (m.lookup k).getD []

/-- Go `type MarkovGenerator struct`. -/
structure MarkovGenerator where
  /-- the transition table -/
  Ngrams : Ngram
  /-- the source text -/
  SourceText : GoString
  deriving DecidableEq

/-- Go `type SplitStrategy int`. -/
abbrev SplitStrategy := Int

/-- The constant `SplitBySpaces` (`iota` = 0). -/
def SplitBySpaces : SplitStrategy := 0

/-- The constant `SplitByNCharacters` (`iota` = 1). -/
def SplitByNCharacters : SplitStrategy := 1

/-- Go `NewMarkovGenerator`: an empty table and the zero value of the text. -/
def NewMarkovGenerator : MarkovGenerator := { Ngrams := ∅, SourceText := [] }

/-- One iteration of the loop of `BuildNgrams`:
`mg.Ngrams[words[i]] = append(mg.Ngrams[words[i]], words[i+1])`. -/
def buildStep (words : List GoString) (m : Ngram) (i : Nat) : Ngram :=
  let currentWord := words.getD i []
  let nextWord := words.getD (i + 1) []
  m.insert currentWord (m.at currentWord ++ [nextWord])

/-- The loop `for i := 0; i < len(words)-1; i++` of `BuildNgrams`, run on the
table `m`. -/
def buildLoop (words : List GoString) (m : Ngram) : Ngram :=
  (List.range (words.length - 1)).foldl (buildStep words) m

/-- The `switch` of `BuildNgrams` that tokenizes the source text; any other
strategy value leaves `words` empty. -/
def tokenize (fuel : Nat) (text : GoString) (strategy : SplitStrategy) (N : Int) :
    Except Fault (List GoString) :=
  if strategy = SplitBySpaces then .ok (splitKeepSpaces text)
  else if strategy = SplitByNCharacters then splitByNCharacters fuel text N
  else .ok []

/-- Go `BuildNgrams`; `fuel` bounds the loop of `splitByNCharacters`. -/
def BuildNgrams (fuel : Nat) (mg : MarkovGenerator) (strategy : SplitStrategy) (N : Int) :
    Except Fault MarkovGenerator :=
  match tokenize fuel mg.SourceText strategy N with
  | .ok words => .ok { mg with Ngrams := buildLoop words mg.Ngrams }
  | .error e => .error e

/-! ## The generator -/

/-- An order in which `for key := range ngram` may visit the keys of the map:
every key exactly once, in an order the run time chooses. -/
structure KeyOrder (m : Ngram) where
  /-- the keys in the order of the iteration -/
  keys : List GoString
  /-- each key of the map is visited exactly once -/
  perm : (keys : Multiset GoString) = m.keys.val

/-- Go `rand.Intn(n)` on the raw draw `raw`: a number in `[0, n)`, and a panic
when `n ≤ 0`. -/
def Intn (raw : Nat) (n : Nat) : Except Fault Nat :=
  if n = 0 then .error .intnArgument else .ok (raw % n)

/-- Go `getRandomKey`: collect the keys in iteration order and index them with
`rand.Intn(len(keys))`. -/
def getRandomKey (m : Ngram) (ord : KeyOrder m) (raw : Nat) : Except Fault GoString :=
  match Intn raw ord.keys.length with
  | .ok idx => .ok (ord.keys.getD idx [])
  | .error e => .error e

/-- The loop of `GenerateText` with `n` iterations left, from the state
`(currentWord, generatedText)`; iteration `i` takes the raw draw `rnd (i + 1)`
(draw `rnd 0` chose the start key). -/
def generateLoop (m : Ngram) (rnd : Nat → Nat) :
    Nat → Nat → GoString → GoString → Except Fault GoString
  | 0, _, _, generatedText => .ok generatedText
  | n + 1, i, currentWord, generatedText =>
    let values := m.at currentWord
    if values.length = 0 then .ok generatedText
    else
      match Intn (rnd (i + 1)) values.length with
      | .ok idx =>
        let nextWord := values.getD idx []
        generateLoop m rnd n (i + 1) nextWord (generatedText ++ nextWord)
      | .error e => .error e

/-- Go `GenerateText`: the loop runs `length` times (not at all when
`length ≤ 0`). -/
def GenerateText (mg : MarkovGenerator) (ord : KeyOrder mg.Ngrams) (rnd : Nat → Nat)
    (length : Int) : Except Fault GoString :=
  match getRandomKey mg.Ngrams ord (rnd 0) with
  | .ok currentWord => generateLoop mg.Ngrams rnd length.toNat 0 currentWord currentWord
  | .error e => .error e

/-- The tokens that the loop of `GenerateText` appends, in order: the same loop
as `generateLoop`, recording each `currentWord` instead of concatenating. -/
def walkLoop (m : Ngram) (rnd : Nat → Nat) : Nat → Nat → GoString → List GoString
  | 0, _, _ => []
  | n + 1, i, currentWord =>
    let values := m.at currentWord
    if values.length = 0 then []
    else
      let nextWord := values.getD (rnd (i + 1) % values.length) []
      nextWord :: walkLoop m rnd n (i + 1) nextWord

/-- Go `Continue`: `panic("Unimplemented")`. -/
def Continue (_mg : MarkovGenerator) (_text : GoString) (_length : Int) : Except Fault GoString :=
  .error .unimplemented

/-! ## Persistence

`WriteNgrams` and `ReadNgrams` hand the table to Go's `encoding/gob` and the
bytes to the file system.  Neither is part of the source of this repository;
they are modelled here from the codec contract of the specification (a
lossless, self-describing, length-prefixed binary serialization) in the wire
format that the documentation of `encoding/gob` describes. -/

/-- Modelled from the spec: the type section of a gob stream is missing from
the source (it is made by `encoding/gob`).  The stream of one table starts with
the messages that define the wire types, here the bytes `typeDefs`, and the
value message names the type of the table by the id `mapId`. -/
structure GobTypes where
  /-- the type-definition messages that precede the value message -/
  typeDefs : List Byte
  /-- the type id of `map[string][]string` in this stream -/
  mapId : Nat
  /-- type ids are 32-bit -/
  mapIdLt : mapId < 2 ^ 31

/-- The `n` low-order bytes of `x`, high byte first. -/
def beBytes : Nat → Nat → List Byte
  | 0, _ => []
  | n + 1, x => Fin.ofNat (x / 256 ^ n) :: beBytes n x

/-- The value of a big-endian byte string: `x = x<<8 | b` for each byte. -/
def beValue (bs : List Byte) : Nat := bs.foldl (fun x b => x * 256 + b.val) 0

/-- The number of bytes that hold the non-zero 64-bit value `x`. -/
def uintLen (x : Nat) : Nat :=
  if x < 256 ^ 1 then 1 else if x < 256 ^ 2 then 2 else if x < 256 ^ 3 then 3
  else if x < 256 ^ 4 then 4 else if x < 256 ^ 5 then 5 else if x < 256 ^ 6 then 6
  else if x < 256 ^ 7 then 7 else 8

/-- Modelled from the spec: gob's encoding of an unsigned integer is missing
from the source.  A value below 128 is one byte; any other value is sent as its
minimal-length big-endian bytes, preceded by one byte holding the negated byte
count.  The argument is taken as a `uint64`. -/
def encodeUint (x : Nat) : List Byte :=
  if x % 2 ^ 64 ≤ 0x7F then [Fin.ofNat (x % 2 ^ 64)]
  else Fin.ofNat (256 - uintLen (x % 2 ^ 64)) :: beBytes (uintLen (x % 2 ^ 64)) (x % 2 ^ 64)

/-- Modelled from the spec: gob's decoding of an unsigned integer is missing
from the source.  It returns the value and the rest of the buffer, and fails on
an empty buffer, on a byte count above 8 and on a buffer shorter than the
count. -/
def decodeUint : List Byte → Option (Nat × List Byte)
  | [] => none
  | b :: buf =>
    if b.val ≤ 0x7F then some (b.val, buf)
    else if 256 - b.val > 8 then none
    else if buf.length < 256 - b.val then none
    else some (beValue (buf.take (256 - b.val)), buf.drop (256 - b.val))

/-- Modelled from the spec: gob's encoding of a signed integer is missing from
the source.  The integer `i` is sent as the unsigned `2 * i`, or as
`2 * (-i - 1) + 1` when it is negative. -/
def encodeInt (i : Int) : List Byte :=
  if i < 0 then encodeUint (2 * (-i - 1).toNat + 1) else encodeUint (2 * i.toNat)

/-- Modelled from the spec: gob's decoding of a signed integer is missing from
the source. -/
def decodeInt (buf : List Byte) : Option (Int × List Byte) :=
  match decodeUint buf with
  | none => none
  | some (x, rest) =>
    if x % 2 = 1 then some (-((x / 2 : Nat) : Int) - 1, rest) else some (((x / 2 : Nat) : Int), rest)

/-- Modelled from the spec: gob's encoding of a string is missing from the
source: the length as an unsigned integer, then the bytes. -/
def encString (s : GoString) : List Byte := encodeUint s.length ++ s

/-- Modelled from the spec: gob's decoding of a string is missing from the
source; it fails when the buffer is shorter than the length read. -/
def decString (buf : List Byte) : Option (GoString × List Byte) :=
  match decodeUint buf with
  | none => none
  | some (n, rest) => if rest.length < n then none else some (rest.take n, rest.drop n)

/-- Modelled from the spec: gob's encoding of a `[]string` is missing from the
source: the number of elements, then each element. -/
def encStringSlice (l : List GoString) : List Byte :=
  encodeUint l.length ++ l.flatMap encString

/-- Decoding of `n` strings in a row. -/
def decStrings : Nat → List Byte → Option (List GoString × List Byte)
  | 0, buf => some ([], buf)
  | n + 1, buf =>
    match decString buf with
    | none => none
    | some (s, rest) =>
      match decStrings n rest with
      | none => none
      | some (l, rest1) => some (s :: l, rest1)

/-- Modelled from the spec: gob's decoding of a `[]string` is missing from the
source. -/
def decStringSlice (buf : List Byte) : Option (List GoString × List Byte) :=
  match decodeUint buf with
  | none => none
  | some (n, rest) => decStrings n rest

/-- The entries of a table in the order of an iteration over the map. -/
def entriesOf (m : Ngram) (ord : KeyOrder m) : List (GoString × List GoString) :=
  ord.keys.map (fun k => (k, m.at k))

/-- Modelled from the spec: gob's encoding of a map is missing from the source:
the number of entries, then each key followed by its element, in the order of
the iteration over the map. -/
def encodeMap (entries : List (GoString × List GoString)) : List Byte :=
  encodeUint entries.length ++ entries.flatMap (fun e => encString e.1 ++ encStringSlice e.2)

/-- Decoding of `n` entries in a row into the map `m`: each decoded pair is
stored with `m[key] = elem`. -/
def decEntries : Nat → Ngram → List Byte → Option (Ngram × List Byte)
  | 0, m, buf => some (m, buf)
  | n + 1, m, buf =>
    match decString buf with
    | none => none
    | some (key, rest) =>
      match decStringSlice rest with
      | none => none
      | some (elem, rest1) => decEntries n (m.insert key elem) rest1

/-- Modelled from the spec: gob's decoding of a map is missing from the source.
`ReadNgrams` hands the decoder the existing map through `&mg.Ngrams`; as
`encoding/gob` does, the entries are stored into that map, which is allocated
only when it is nil and is not cleared first. -/
def decodeMap (m : Ngram) (buf : List Byte) : Option (Ngram × List Byte) :=
  match decodeUint buf with
  | none => none
  | some (n, rest) => decEntries n m rest

/-- The body of the value message: the type id, the zero byte that precedes a
value that is not a struct, and the map. -/
def valueBody (ty : GobTypes) (m : Ngram) (ord : KeyOrder m) : List Byte :=
  encodeInt ty.mapId ++ [0] ++ encodeMap (entriesOf m ord)

/-- Modelled from the spec: `gob.NewEncoder(&buffer).Encode(ngrams)` is missing
from the source.  The stream is the type section followed by the value message,
which is its length in bytes and its body. -/
def gobEncode (ty : GobTypes) (m : Ngram) (ord : KeyOrder m) : List Byte :=
  ty.typeDefs ++ encodeUint (valueBody ty m ord).length ++ valueBody ty m ord

/-- Decoding of the value message into the map `m`. -/
def decodeValueMessage (ty : GobTypes) (m : Ngram) (stream : List Byte) : Option Ngram :=
  match decodeUint stream with
  | none => none
  | some (nbytes, rest) =>
    if rest.length < nbytes then none
    else
      match decodeInt (rest.take nbytes) with
      | none => none
      | some (id, buf) =>
        if id ≠ (ty.mapId : Int) then none
        else
          match decodeUint buf with
          | none => none
          | some (delta, buf1) =>
            if delta ≠ 0 then none
            else
              match decodeMap m buf1 with
              | none => none
              | some (m1, _) => some m1

/-- Modelled from the spec: `gob.NewDecoder(&buffer).Decode(&ngrams)` is missing
from the source.  The decoder takes the type section, then decodes the value
message into the map it was given; `none` is a decoding error. -/
def gobDecode (ty : GobTypes) (m : Ngram) (stream : List Byte) : Option Ngram :=
  if ty.typeDefs.isPrefixOf stream then
    decodeValueMessage ty m (stream.drop ty.typeDefs.length)
  else none

/-- Modelled from the spec: the file system is missing from the source (package
`os`).  `files` gives the content of each file that can be opened and read, and
`writable` tells for which paths `os.Create` and the write that follows
succeed. -/
structure FileSystem where
  /-- the content of the files that can be read -/
  files : GoString → Option (List Byte)
  /-- the paths that can be created and written -/
  writable : GoString → Bool

/-- The file system after `data` was written to `path`. -/
def FileSystem.store (fs : FileSystem) (path : GoString) (data : List Byte) : FileSystem :=
  { fs with files := fun p => if p = path then some data else fs.files p }

/-- Go `WriteNgrams`: encode the table into a buffer and write the buffer to a
new file at `path`; a failure to create or write the file ends in `log.Fatal`. -/
def WriteNgrams (ty : GobTypes) (mg : MarkovGenerator) (ord : KeyOrder mg.Ngrams)
    (fs : FileSystem) (path : GoString) : Except Fault (MarkovGenerator × FileSystem) :=
  let buffer := gobEncode ty mg.Ngrams ord
  if fs.writable path then .ok (mg, fs.store path buffer)
  else .error .fatalExit

/-- Go `ReadNgrams`: read the file at `path` into a buffer and decode it into
`mg.Ngrams`; a failure to open, read or decode ends in `log.Fatal`. -/
def ReadNgrams (ty : GobTypes) (mg : MarkovGenerator) (fs : FileSystem) (path : GoString) :
    Except Fault MarkovGenerator :=
  match fs.files path with
  | none => .error .fatalExit
  | some buffer =>
    match gobDecode ty mg.Ngrams buffer with
    | some m => .ok { mg with Ngrams := m }
    | none => .error .fatalExit

/-- Every length in the entries is a 64-bit value. -/
def EntriesFit (entries : List (GoString × List GoString)) : Prop :=
  ∀ e ∈ entries, e.1.length < 2 ^ 64 ∧ e.2.length < 2 ^ 64 ∧ ∀ s ∈ e.2, s.length < 2 ^ 64

/-! ## Specification-side definitions -/

/-- The successors of `k` in `tokens`, as the specification lists them:
`tokens[i+1]` for every `i` in `[0, len(tokens)-2]` with `tokens[i] = k`, in
increasing order of `i`. -/
def followers (tokens : List GoString) (k : GoString) : List GoString :=
  ((List.range (tokens.length - 1)).filter (fun i => decide (tokens.getD i [] = k))).map
    (fun i => tokens.getD (i + 1) [])

/-- The first `n` iterations of the loop of `BuildNgrams`. -/
def buildIter (words : List GoString) (m : Ngram) (n : Nat) : Ngram :=
  (List.range n).foldl (buildStep words) m

/-- The successors of `k` seen in the first `n` iterations. -/
def followersUpTo (tokens : List GoString) (k : GoString) (n : Nat) : List GoString :=
  ((List.range n).filter (fun i => decide (tokens.getD i [] = k))).map
    (fun i => tokens.getD (i + 1) [])

/-- The tokens of the text that `GenerateText` returns: the start key followed
by the tokens its loop appends. -/
def generatedTokens (mg : MarkovGenerator) (ord : KeyOrder mg.Ngrams) (rnd : Nat → Nat)
    (length : Int) : Except Fault (List GoString) :=
  match getRandomKey mg.Ngrams ord (rnd 0) with
  | .ok currentWord => .ok (currentWord :: walkLoop mg.Ngrams rnd length.toNat 0 currentWord)
  | .error e => .error e

/-- The chain of the random walk, as the specification describes it: the token
reached `j` steps after `currentWord`, when step number `i` is the next one to
be drawn, and `none` when a token with no successors comes earlier. -/
def chainFrom (m : Ngram) (rnd : Nat → Nat) : Nat → Nat → GoString → Option GoString
  | 0, _, currentWord => some currentWord
  | j + 1, i, currentWord =>
    if (m.at currentWord).length = 0 then none
    else chainFrom m rnd j (i + 1)
      ((m.at currentWord).getD (rnd (i + 1) % (m.at currentWord).length) [])

/-- The walk from `start` reaches a token with no successors after exactly `d`
steps. -/
def DeadEndAt (m : Ngram) (rnd : Nat → Nat) (i : Nat) (start : GoString) (d : Nat) : Prop :=
  ∃ c, chainFrom m rnd d i start = some c ∧ m.at c = []

/-- A separator token: exactly one space or exactly one newline. -/
def IsSeparator (t : GoString) : Prop := t = [0x20] ∨ t = [0x0A]

/-- A run token: non-empty, with neither a space nor a newline in it. -/
def IsRun (t : GoString) : Prop := t ≠ [] ∧ (0x20 : Byte) ∉ t ∧ (0x0A : Byte) ∉ t

/-- The invariant of the loop of `splitKeepSpaces`. -/
def SplitInv (result : List GoString) (word : GoString) : Prop :=
  (∀ t ∈ result, IsSeparator t ∨ IsRun t) ∧
  List.Chain' (fun a b => ¬ (IsRun a ∧ IsRun b)) result ∧
  (∀ t ∈ result.getLast?, IsSeparator t) ∧
  (0x20 : Byte) ∉ word ∧ (0x0A : Byte) ∉ word

/-! ## Concrete models -/

/-- The table `{"a": ["b", "b", "c"]}`. -/
def tableABBC : Ngram := Finmap.insert (str "a") [str "b", str "b", str "c"] ∅

/-- A model holding `tableABBC`. -/
def modelABBC : MarkovGenerator := { Ngrams := tableABBC, SourceText := [] }

/-- The only iteration order of the keys of `tableABBC`. -/
def orderABBC : KeyOrder modelABBC.Ngrams := { keys := [str "a"], perm := by decide }

/-- The only iteration order of the keys of the empty table. -/
def orderEmpty : KeyOrder NewMarkovGenerator.Ngrams := { keys := [], perm := by decide }

/-- The model built with `SplitBySpaces` from the text `"the cat sat. the cat ran."`. -/
def modelCat : MarkovGenerator :=
  { Ngrams := buildLoop (splitKeepSpaces (str "the cat sat. the cat ran.")) ∅,
    SourceText := str "the cat sat. the cat ran." }

/-- An iteration order of the keys of `modelCat`. -/
def orderCat : KeyOrder modelCat.Ngrams :=
  { keys := [str "sat.", str " ", str "the", str "cat"], perm := by decide }

/-- A type section: type 66 is a map from `string` to type 65, and type 65 is
a slice of `string`. -/
def typesNgram : GobTypes :=
  { typeDefs := [0x0F, 0xFF, 0x83, 0x04, 0x01, 0x02, 0xFF, 0x84, 0x00, 0x01, 0x0C, 0x01, 0xFF,
      0x82, 0x00, 0x00, 0x0C, 0xFF, 0x81, 0x02, 0x01, 0x02, 0xFF, 0x82, 0x00, 0x01, 0x0C, 0x00,
      0x00],
    mapId := 66,
    mapIdLt := by decide }

/-- A file system with no file, in which every path can be written. -/
def emptyDisk : FileSystem := { files := fun _ => none, writable := fun _ => true }

/-- Go's `utf8.ValidString`, with a bound `fuel` on the decoding steps: no step
of the decoding meets an invalid or incomplete encoding. -/
def validUTF8Fuel : Nat → GoString → Bool
  | _, [] => true
  | 0, _ :: _ => false
  | fuel + 1, b :: rest =>
    let d := decodeRune (b :: rest)
    !(decide (d.1 = runeError) && decide (d.2 = 1)) && validUTF8Fuel fuel ((b :: rest).drop d.2)

/-- Go's `utf8.ValidString`: the text is valid UTF-8. -/
def validUTF8 (s : GoString) : Bool := validUTF8Fuel s.length s

/-- Whether a caller can stop the fault with a deferred `recover()`: a panic
unwinds the stack and can be recovered; `log.Fatal` calls `os.Exit(1)`, which
ends the process at once; a loop that never ends gives the caller nothing. -/
def Fault.recoverable : Fault → Bool
  | .sliceBounds => true
  | .intnArgument => true
  | .unimplemented => true
  | .fatalExit => false
  | .outOfFuel => false

/-- A file system whose only file, `"ngrams.gob"`, holds the encoded table of
`modelCat`. -/
def diskCat : FileSystem :=
  emptyDisk.store (str "ngrams.gob") (gobEncode typesNgram modelCat.Ngrams orderCat)

/-- A file system whose only file, `"ngrams.gob"`, holds the encoded table
`{"a": ["b","b","c"]}` without its last three bytes. -/
def diskTruncated : FileSystem :=
  emptyDisk.store (str "ngrams.gob") ((gobEncode typesNgram tableABBC orderABBC).take 40)

/-- The tables that calls of `BuildNgrams` make from the empty table of
`NewMarkovGenerator`, whatever the source text, the strategy and the width of
each call. -/
inductive Reachable : Ngram → Prop
  | new : Reachable NewMarkovGenerator.Ngrams
  | build (fuel : Nat) (mg mg1 : MarkovGenerator) (strategy : SplitStrategy) (N : Int) :
      Reachable mg.Ngrams → BuildNgrams fuel mg strategy N = .ok mg1 → Reachable mg1.Ngrams

/-- Every key of the table has at least one successor. -/
def NoEmptyList (m : Ngram) : Prop := ∀ k v, m.lookup k = some v → v ≠ []

/-! # Theorems -/

/-! ## The builder loop -/

theorem buildIter_succ (words : List GoString) (m : Ngram) (n : Nat) :
    buildIter words m (n + 1) = buildStep words (buildIter words m n) n := by
  simp [buildIter, List.range_succ, List.foldl_append]

theorem followersUpTo_succ (tokens : List GoString) (k : GoString) (n : Nat) :
    followersUpTo tokens k (n + 1) =
      followersUpTo tokens k n ++
        (if tokens.getD n [] = k then [tokens.getD (n + 1) []] else []) := by
  unfold followersUpTo
  rw [List.range_succ, List.filter_append, List.map_append]
  congr 1
  by_cases h : tokens.getD n [] = k
  · rw [if_pos h, List.filter_cons_of_pos (by simpa using h)]; rfl
  · rw [if_neg h, List.filter_cons_of_neg (by simpa using h)]; rfl

theorem getD_mem_take (words : List GoString) (i n : Nat) (hi : i < n)
    (hn : n ≤ words.length) : words.getD i [] ∈ words.take n := by
  have hlen : i < (words.take n).length := by
    rw [List.length_take]; omega
  have h : (words.take n)[i] = words.getD i [] := by
    rw [List.getElem_take, List.getD_eq_getElem?_getD, List.getElem?_eq_getElem (by omega)]
    rfl
  rw [← h]
  exact List.getElem_mem hlen

theorem followersUpTo_of_not_mem (words : List GoString) (k : GoString) (n : Nat)
    (hn : n ≤ words.length) (hk : k ∉ words.take n) : followersUpTo words k n = [] := by
  unfold followersUpTo
  rw [List.map_eq_nil_iff, List.filter_eq_nil_iff]
  intro i hi h
  rw [List.mem_range] at hi
  have h2 : words.getD i [] = k := by simpa using h
  exact hk (h2 ▸ getD_mem_take words i n hi hn)

theorem lookup_buildStep (words : List GoString) (m : Ngram) (n : Nat) (k : GoString) :
    (buildStep words m n).lookup k =
      if k = words.getD n [] then some (m.at k ++ [words.getD (n + 1) []]) else m.lookup k := by
  unfold buildStep
  by_cases h : k = words.getD n []
  · rw [if_pos h, h]; exact Finmap.lookup_insert _
  · rw [if_neg h]; exact Finmap.lookup_insert_of_ne _ h

theorem lookup_buildIter (words : List GoString) (m : Ngram) (k : GoString) :
    ∀ n, n ≤ words.length →
      (buildIter words m n).lookup k =
        if k ∈ words.take n then some (m.at k ++ followersUpTo words k n) else m.lookup k := by
  intro n
  induction n with
  | zero => intro _; simp [buildIter]
  | succ n ih =>
    intro hn
    have hlt : n < words.length := hn
    have ih := ih (Nat.le_of_lt hlt)
    have htake : words.take (n + 1) = words.take n ++ [words.getD n []] := by
      rw [List.take_succ, List.getD_eq_getElem?_getD, List.getElem?_eq_getElem hlt]
      rfl
    rw [buildIter_succ, lookup_buildStep, followersUpTo_succ, htake]
    by_cases hk : k = words.getD n []
    · have hat : (buildIter words m n).at k = m.at k ++ followersUpTo words k n := by
        unfold Ngram.at
        rw [ih]
        by_cases hmem : k ∈ words.take n
        · rw [if_pos hmem]; rfl
        · rw [if_neg hmem, followersUpTo_of_not_mem words k n (Nat.le_of_lt hlt) hmem,
            List.append_nil]
      rw [if_pos hk, if_pos hk.symm, if_pos (List.mem_append.2 (Or.inr (List.mem_singleton.2 hk))),
        hat, List.append_assoc]
    · have hk2 : ¬ words.getD n [] = k := fun h => hk h.symm
      rw [if_neg hk, if_neg hk2, ih, List.append_nil]
      by_cases hmem : k ∈ words.take n
      · rw [if_pos hmem, if_pos (List.mem_append.2 (Or.inl hmem))]
      · have hnot : k ∉ words.take n ++ [words.getD n []] := by
          rw [List.mem_append, List.mem_singleton]
          exact fun h => h.elim hmem hk
        rw [if_neg hmem, if_neg hnot]

/-- C1: after the builder loop of `BuildNgrams` runs on the table `T` with the
token sequence `tokens`, every key `k` that occurs among
`tokens[0..len(tokens)-2]` holds the previous list of `k` (empty if `k` was
absent) followed by `tokens[i+1]` for every `i` in `[0, len(tokens)-2]` with
`tokens[i] = k` in increasing order of `i`, and every other key keeps exactly
its previous entry. -/
theorem buildLoop_lookup (T : Ngram) (tokens : List GoString) (k : GoString) :
    (buildLoop tokens T).lookup k =
      if k ∈ tokens.take (tokens.length - 1) then some (T.at k ++ followers tokens k)
      else T.lookup k :=
  lookup_buildIter tokens T k (tokens.length - 1) (Nat.sub_le _ _)

/-! ## The generator -/

theorem exists_mem_of_ne_empty (m : Ngram) (h : m ≠ ∅) : ∃ k, k ∈ m := by
  by_contra hno
  apply h
  apply Finmap.ext_lookup
  intro x
  rw [Finmap.lookup_empty, Finmap.lookup_eq_none]
  exact fun hx => hno ⟨x, hx⟩

theorem KeyOrder.mem_iff {m : Ngram} (ord : KeyOrder m) (k : GoString) :
    k ∈ ord.keys ↔ k ∈ m := by
  rw [← Finmap.mem_keys, ← Finset.mem_val, ← ord.perm]
  exact Iff.rfl

theorem KeyOrder.nonempty (m : Ngram) : Nonempty (KeyOrder m) := by
  obtain ⟨l, hl⟩ := Quot.exists_rep m.keys.val
  exact ⟨{ keys := l, perm := hl }⟩

theorem KeyOrder.length_pos {m : Ngram} (ord : KeyOrder m) (h : m ≠ ∅) :
    0 < ord.keys.length := by
  obtain ⟨k, hk⟩ := exists_mem_of_ne_empty m h
  exact List.length_pos_of_mem ((ord.mem_iff k).2 hk)

theorem KeyOrder.keys_empty (ord : KeyOrder (∅ : Ngram)) : ord.keys = [] := by
  cases hks : ord.keys with
  | nil => rfl
  | cons k ks =>
    have : k ∈ (∅ : Ngram) := (ord.mem_iff k).1 (by rw [hks]; exact List.mem_cons_self k ks)
    exact absurd this (Finmap.not_mem_empty)

theorem getD_mem_of_lt (l : List GoString) (i : Nat) (h : i < l.length) : l.getD i [] ∈ l := by
  rw [List.getD_eq_getElem?_getD, List.getElem?_eq_getElem h]
  exact List.getElem_mem h

theorem getRandomKey_ok (m : Ngram) (ord : KeyOrder m) (raw : Nat) (h : m ≠ ∅) :
    getRandomKey m ord raw = .ok (ord.keys.getD (raw % ord.keys.length) []) ∧
      ord.keys.getD (raw % ord.keys.length) [] ∈ m := by
  have hpos := ord.length_pos h
  constructor
  · unfold getRandomKey Intn
    rw [if_neg (Nat.pos_iff_ne_zero.1 hpos)]
  · exact (ord.mem_iff _).1 (getD_mem_of_lt _ _ (Nat.mod_lt _ hpos))

theorem generateLoop_eq (m : Ngram) (rnd : Nat → Nat) :
    ∀ (n i : Nat) (currentWord generatedText : GoString),
      generateLoop m rnd n i currentWord generatedText =
        .ok (generatedText ++ (walkLoop m rnd n i currentWord).flatten) := by
  intro n
  induction n with
  | zero => intro i c t; simp [generateLoop, walkLoop]
  | succ n ih =>
    intro i c t
    unfold generateLoop walkLoop
    by_cases h : (m.at c).length = 0
    · simp [h]
    · simp only [h, if_false, Intn]
      rw [ih]
      simp [List.append_assoc]

theorem GenerateText_eq (mg : MarkovGenerator) (ord : KeyOrder mg.Ngrams) (rnd : Nat → Nat)
    (length : Int) :
    GenerateText mg ord rnd length = (generatedTokens mg ord rnd length).map List.flatten := by
  unfold GenerateText generatedTokens
  cases getRandomKey mg.Ngrams ord (rnd 0) with
  | error e => rfl
  | ok c =>
    simp only [generateLoop_eq]
    simp [Except.map]

theorem walkLoop_length_le (m : Ngram) (rnd : Nat → Nat) :
    ∀ (n i : Nat) (c : GoString), (walkLoop m rnd n i c).length ≤ n := by
  intro n
  induction n with
  | zero => intro i c; simp [walkLoop]
  | succ n ih =>
    intro i c
    unfold walkLoop
    by_cases h : (m.at c).length = 0
    · simp [h]
    · simp only [h, if_false, List.length_cons]
      exact Nat.succ_le_succ (ih _ _)

theorem walkLoop_length_of_deadEnd (m : Ngram) (rnd : Nat → Nat) :
    ∀ (n i : Nat) (c : GoString) (d : Nat), DeadEndAt m rnd i c d →
      (walkLoop m rnd n i c).length = min n d := by
  intro n
  induction n with
  | zero => intro i c d _; simp [walkLoop]
  | succ n ih =>
    intro i c d hd
    obtain ⟨e, he, hempty⟩ := hd
    unfold walkLoop
    by_cases h : (m.at c).length = 0
    · cases d with
      | zero => simp [h]
      | succ d => simp [chainFrom, h] at he
    · cases d with
      | zero =>
        simp only [chainFrom, Option.some.injEq] at he
        subst he
        simp [hempty] at h
      | succ d =>
        simp only [chainFrom, h, if_false] at he
        simp only [h, if_false, List.length_cons]
        rw [ih _ _ d ⟨e, he, hempty⟩]
        omega

theorem walkLoop_length_of_no_deadEnd (m : Ngram) (rnd : Nat → Nat) :
    ∀ (n i : Nat) (c : GoString), (∀ d, d < n → ¬ DeadEndAt m rnd i c d) →
      (walkLoop m rnd n i c).length = n := by
  intro n
  induction n with
  | zero => intro i c _; simp [walkLoop]
  | succ n ih =>
    intro i c hno
    unfold walkLoop
    have h : ¬ (m.at c).length = 0 := by
      intro h0
      exact hno 0 (Nat.succ_pos n) ⟨c, rfl, List.length_eq_zero.1 h0⟩
    simp only [h, if_false, List.length_cons]
    rw [ih]
    intro d hd hdead
    obtain ⟨e, he, hempty⟩ := hdead
    refine hno (d + 1) (Nat.succ_lt_succ hd) ⟨e, ?_, hempty⟩
    simp only [chainFrom, h, if_false]
    exact he

/-- C2: for every non-empty table, every `length ≥ 0` and every sequence of
random choices, `GenerateText` returns (its loop runs at most `length` times)
the concatenation of the start key and of at most `length` further tokens;
when the walk reaches a token with no successors after `d` steps the number of
tokens is `min(length, d) + 1`, and when it reaches none within `length` steps
the number is `length + 1`. -/
theorem GenerateText_token_count (mg : MarkovGenerator) (ord : KeyOrder mg.Ngrams)
    (rnd : Nat → Nat) (length : Int) (hne : mg.Ngrams ≠ ∅) (hlen : 0 ≤ length) :
    ∃ start steps,
      start ∈ mg.Ngrams ∧
      generatedTokens mg ord rnd length = .ok (start :: steps) ∧
      GenerateText mg ord rnd length = .ok (start :: steps).flatten ∧
      ((start :: steps).length : Int) ≤ length + 1 ∧
      (∀ d : Nat, DeadEndAt mg.Ngrams rnd 0 start d →
        ((start :: steps).length : Int) = min length d + 1) ∧
      ((∀ d : Nat, (d : Int) < length → ¬ DeadEndAt mg.Ngrams rnd 0 start d) →
        ((start :: steps).length : Int) = length + 1) := by
  obtain ⟨hkey, hmem⟩ := getRandomKey_ok mg.Ngrams ord (rnd 0) hne
  have htoks : generatedTokens mg ord rnd length =
      .ok (ord.keys.getD (rnd 0 % ord.keys.length) [] ::
        walkLoop mg.Ngrams rnd length.toNat 0 (ord.keys.getD (rnd 0 % ord.keys.length) [])) := by
    unfold generatedTokens
    rw [hkey]
  have hnat : (length.toNat : Int) = length := Int.toNat_of_nonneg hlen
  refine ⟨_, _, hmem, htoks, ?_, ?_, ?_, ?_⟩
  · rw [GenerateText_eq, htoks]; rfl
  · have := walkLoop_length_le mg.Ngrams rnd length.toNat 0
      (ord.keys.getD (rnd 0 % ord.keys.length) [])
    rw [List.length_cons]
    omega
  · intro d hd
    rw [List.length_cons, walkLoop_length_of_deadEnd mg.Ngrams rnd length.toNat 0 _ d hd]
    omega
  · intro hno
    rw [List.length_cons, walkLoop_length_of_no_deadEnd mg.Ngrams rnd length.toNat 0 _
      (fun d hd => hno d (by omega))]
    omega

/-- Witness of C2 on the table `{"a": ["b", "b", "c"]}` with `length = 3`. -/
theorem GenerateText_token_count_witness :
    modelABBC.Ngrams ≠ ∅ ∧ (0 : Int) ≤ 3 ∧
    ∃ start steps,
      start ∈ modelABBC.Ngrams ∧
      generatedTokens modelABBC orderABBC (fun _ => 0) 3 = .ok (start :: steps) ∧
      GenerateText modelABBC orderABBC (fun _ => 0) 3 = .ok (start :: steps).flatten ∧
      ((start :: steps).length : Int) ≤ 3 + 1 ∧
      (∀ d : Nat, DeadEndAt modelABBC.Ngrams (fun _ => 0) 0 start d →
        ((start :: steps).length : Int) = min (3 : Int) d + 1) ∧
      ((∀ d : Nat, (d : Int) < 3 → ¬ DeadEndAt modelABBC.Ngrams (fun _ => 0) 0 start d) →
        ((start :: steps).length : Int) = 3 + 1) :=
  ⟨by decide, by decide,
    GenerateText_token_count modelABBC orderABBC (fun _ => 0) 3 (by decide) (by decide)⟩


/-! ## The whitespace tokenizer -/

theorem encodeRune_ne_nil (r : Nat) : encodeRune r ≠ [] := by
  unfold encodeRune
  split_ifs <;> simp

theorem not_mem_encodeRune (r : Nat) (b : Byte) (hb : b.val < 0x80) (hr : r ≠ b.val) :
    b ∉ encodeRune r := by
  unfold encodeRune
  intro hmem
  split_ifs at hmem with h1 h2 h3 h4 <;>
    simp only [List.mem_cons, List.mem_singleton, List.not_mem_nil, or_false] at hmem
  · have := congrArg Fin.val hmem
    simp [Fin.ofNat] at this
    omega
  · rcases hmem with h | h <;> have := congrArg Fin.val h <;> simp [Fin.ofNat] at this <;> omega
  · rcases hmem with h | h | h <;> have := congrArg Fin.val h <;> simp at this <;> omega
  · rcases hmem with h | h | h <;> have := congrArg Fin.val h <;> simp [Fin.ofNat] at this <;> omega
  · rcases hmem with h | h | h | h <;> have := congrArg Fin.val h <;> simp [Fin.ofNat] at this <;> omega


theorem IsSeparator.not_isRun {t : GoString} (h : IsSeparator t) : ¬ IsRun t := by
  rintro ⟨_, h20, h0A⟩
  rcases h with h | h <;> subst h <;> simp at h20 h0A

theorem encodeRune_isSeparator (char : Nat) (h : char = spaceRune ∨ char = newlineRune) :
    IsSeparator (encodeRune char) := by
  rcases h with h | h <;> subst h
  · exact Or.inl (by decide)
  · exact Or.inr (by decide)

theorem SplitInv.push_word {result : List GoString} {word : GoString}
    (h : SplitInv result word) (hw : word ≠ []) :
    (∀ t ∈ result ++ [word], IsSeparator t ∨ IsRun t) ∧
    List.Chain' (fun a b => ¬ (IsRun a ∧ IsRun b)) (result ++ [word]) := by
  obtain ⟨hshape, hchain, hlast, h20, h0A⟩ := h
  constructor
  · intro t ht
    rcases List.mem_append.1 ht with ht | ht
    · exact hshape t ht
    · rw [List.mem_singleton] at ht
      subst ht
      exact Or.inr ⟨hw, h20, h0A⟩
  · rw [List.chain'_append]
    refine ⟨hchain, List.chain'_singleton _, ?_⟩
    intro x hx y _ hxy
    exact (hlast x hx).not_isRun hxy.1

theorem SplitInv.push_sep {result : List GoString} {sep : GoString}
    (hshape : ∀ t ∈ result, IsSeparator t ∨ IsRun t)
    (hchain : List.Chain' (fun a b => ¬ (IsRun a ∧ IsRun b)) result)
    (hsep : IsSeparator sep) : SplitInv (result ++ [sep]) [] := by
  refine ⟨?_, ?_, ?_, by simp, by simp⟩
  · intro t ht
    rcases List.mem_append.1 ht with ht | ht
    · exact hshape t ht
    · rw [List.mem_singleton] at ht
      subst ht
      exact Or.inl hsep
  · rw [List.chain'_append]
    refine ⟨hchain, List.chain'_singleton _, ?_⟩
    intro x _ y hy hxy
    simp only [List.head?_cons, Option.mem_def, Option.some.injEq] at hy
    subst hy
    exact hsep.not_isRun hxy.2
  · intro t ht
    simp only [List.getLast?_append, List.getLast?_singleton, Option.mem_def] at ht
    simp at ht
    subst ht
    exact hsep

theorem splitKeepSpacesLoop_inv :
    ∀ (rs : List Nat) (result : List GoString) (word : GoString), SplitInv result word →
      SplitInv (splitKeepSpacesLoop rs result word).1 (splitKeepSpacesLoop rs result word).2 ∧
      (splitKeepSpacesLoop rs result word).1.flatten ++ (splitKeepSpacesLoop rs result word).2 =
        result.flatten ++ word ++ rs.flatMap encodeRune := by
  intro rs
  induction rs with
  | nil => intro result word h; simp [splitKeepSpacesLoop, h]
  | cons char rest ih =>
    intro result word h
    unfold splitKeepSpacesLoop
    by_cases hc : char = spaceRune ∨ char = newlineRune
    · rw [if_pos hc]
      have hsep := encodeRune_isSeparator char hc
      by_cases hw : word = []
      · subst hw
        have hinv : SplitInv (result ++ [encodeRune char]) [] :=
          SplitInv.push_sep h.1 h.2.1 hsep
        obtain ⟨h1, h2⟩ := ih _ _ hinv
        simp only [ne_eq, not_true_eq_false, if_false]
        refine ⟨h1, ?_⟩
        rw [h2]
        simp [List.flatMap_cons]
      · have hpush := h.push_word hw
        have hinv : SplitInv (result ++ [word] ++ [encodeRune char]) [] :=
          SplitInv.push_sep hpush.1 hpush.2 hsep
        obtain ⟨h1, h2⟩ := ih _ _ hinv
        simp only [ne_eq, hw, not_false_eq_true, if_true]
        refine ⟨h1, ?_⟩
        rw [h2]
        simp [List.flatMap_cons]
    · rw [if_neg hc]
      have hc1 : char ≠ spaceRune := fun e => hc (Or.inl e)
      have hc2 : char ≠ newlineRune := fun e => hc (Or.inr e)
      have hinv : SplitInv result (word ++ encodeRune char) := by
        obtain ⟨hshape, hchain, hlast, h20, h0A⟩ := h
        refine ⟨hshape, hchain, hlast, ?_, ?_⟩
        · rw [List.mem_append]
          exact fun e => e.elim h20 (not_mem_encodeRune char 0x20 (by decide) hc1)
        · rw [List.mem_append]
          exact fun e => e.elim h0A (not_mem_encodeRune char 0x0A (by decide) hc2)
      obtain ⟨h1, h2⟩ := ih _ _ hinv
      refine ⟨h1, ?_⟩
      rw [h2]
      simp [List.flatMap_cons]

/-- C3: every token of `splitKeepSpaces` is exactly one space or one newline,
or a non-empty run with neither a space nor a newline in it; no two adjacent
tokens are both runs; the tokens are in source order: concatenated they are
the characters of the text in order; `"ab cd"` gives `["ab", " ", "cd"]`. -/
theorem splitKeepSpaces_tokens (s : GoString) :
    (∀ t ∈ splitKeepSpaces s, IsSeparator t ∨ IsRun t) ∧
    List.Chain' (fun a b => ¬ (IsRun a ∧ IsRun b)) (splitKeepSpaces s) ∧
    (splitKeepSpaces s).flatten = (runes s).flatMap encodeRune ∧
    splitKeepSpaces (str "ab cd") = [str "ab", str " ", str "cd"] := by
  have hinit : SplitInv [] [] := ⟨by simp, List.chain'_nil, by simp, by simp, by simp⟩
  obtain ⟨hinv, hflat⟩ := splitKeepSpacesLoop_inv (runes s) [] [] hinit
  unfold splitKeepSpaces
  by_cases hw : (splitKeepSpacesLoop (runes s) [] []).2 = []
  · simp only [ne_eq, hw, not_true_eq_false, if_false]
    refine ⟨hinv.1, hinv.2.1, ?_, by decide⟩
    rw [hw] at hflat
    simpa using hflat
  · have hpush := hinv.push_word hw
    simp only [ne_eq, hw, not_false_eq_true, if_true]
    refine ⟨hpush.1, hpush.2, ?_, by decide⟩
    simpa using hflat

/-! ## The fixed-width tokenizer -/

/-- C4 (the code at the failing input): `splitByNCharacters` slices by bytes.
On `"éab"` with width 2 the first chunk is `"é"`, two bytes but one code
point; on `"aé"` with width 2 the two bytes of `é` fall into different chunks. -/
theorem splitByNCharacters_slices_bytes :
    splitByNCharacters 4 (str "éab") 2 = .ok [str "é", str "ab"] ∧
    (runes (str "é")).length = 1 ∧ (str "é").length = 2 ∧
    splitByNCharacters 4 (str "aé") 2 = .ok [[0x61, 0xC3], [0xA9]] := by
  decide

theorem splitByNCharactersLoop_ok (s : GoString) (N : Int) (hN : 1 ≤ N) :
    ∀ (fuel : Nat) (i : Int) (result : List GoString), 0 ≤ i →
      ((s.length : Int) - i).toNat < fuel →
      ∃ toks, splitByNCharactersLoop s N fuel i result = .ok toks := by
  intro fuel
  induction fuel with
  | zero => intro i result _ h; omega
  | succ fuel ih =>
    intro i result hi hfuel
    unfold splitByNCharactersLoop
    by_cases hlt : i < (s.length : Int)
    · rw [if_pos hlt]
      simp only []
      have hb : 0 ≤ i ∧
          i ≤ (if i + N > (s.length : Int) then (s.length : Int) else i + N) ∧
          (if i + N > (s.length : Int) then (s.length : Int) else i + N) ≤ (s.length : Int) := by
        split_ifs <;> omega
      rw [if_pos hb]
      exact ih _ _ (by omega) (by omega)
    · rw [if_neg hlt]
      exact ⟨result, rfl⟩

/-- C8 (counterexample): with a width `≤ 0` the fixed-width tokenizer is not
rejected: on `"a"` with width `-1` it panics on the slice bounds, on `"a"` with
width `0` its loop is still running after 1000 iterations, and on the empty text
with width `0` it returns a token sequence, the empty one. -/
theorem splitByNCharacters_nonpositive_width :
    splitByNCharacters 4 (str "a") (-1) = .error .sliceBounds ∧
    splitByNCharacters 1000 (str "a") 0 = .error .outOfFuel ∧
    splitByNCharacters 4 [] 0 = .ok [] ∧
    BuildNgrams 4 { Ngrams := ∅, SourceText := str "a" } SplitByNCharacters (-1) =
      .error .sliceBounds := by
  refine ⟨by decide, ?_, by decide, by decide⟩
  have h : ∀ (fuel : Nat) (result : List GoString),
      splitByNCharactersLoop (str "a") 0 fuel 0 result = .error .outOfFuel := by
    intro fuel
    induction fuel with
    | zero => intro result; rfl
    | succ fuel ih =>
      intro result
      unfold splitByNCharactersLoop
      rw [if_pos (by decide)]
      simp only []
      rw [if_pos (by decide)]
      exact ih _
  exact h 1000 []

/-- C8 (amended): `splitByNCharacters` has no check of the width and no error
result; whenever the text is empty or the width is at least 1, it terminates
within `len(s)` iterations and returns a token sequence. -/
theorem splitByNCharacters_returns (s : GoString) (N : Int) (h : s = [] ∨ 1 ≤ N) :
    ∃ toks, splitByNCharacters (s.length + 1) s N = .ok toks := by
  rcases h with h | h
  · subst h
    exact ⟨[], rfl⟩
  · exact splitByNCharactersLoop_ok s N h (s.length + 1) 0 [] (le_refl 0) (by omega)

/-- Witness of C8 (amended) on `"abcdefg"` with width 3. -/
theorem splitByNCharacters_returns_witness :
    (str "abcdefg" = [] ∨ (1 : Int) ≤ 3) ∧
    ∃ toks, splitByNCharacters ((str "abcdefg").length + 1) (str "abcdefg") 3 = .ok toks :=
  ⟨Or.inr (by decide), splitByNCharacters_returns (str "abcdefg") 3 (Or.inr (by decide))⟩

/-! ## Builder: accumulation and no-op -/

/-- C6 (counterexample): after building from `["a","b","a","c"]` and then from
`["a","b"]` on an empty table, the key `"b"` is neither absent nor mapped to
the empty list: the pair `("b", "a")` of the first build gave it `["a"]`. -/
theorem build_twice_b_not_empty :
    ¬ ((buildLoop [str "a", str "b"]
          (buildLoop [str "a", str "b", str "a", str "c"] NewMarkovGenerator.Ngrams)).lookup
            (str "a") = some [str "b", str "c", str "b"] ∧
       ((buildLoop [str "a", str "b"]
          (buildLoop [str "a", str "b", str "a", str "c"] NewMarkovGenerator.Ngrams)).lookup
            (str "b") = none ∨
        (buildLoop [str "a", str "b"]
          (buildLoop [str "a", str "b", str "a", str "c"] NewMarkovGenerator.Ngrams)).lookup
            (str "b") = some [])) := by
  decide

/-- C6 (amended): starting from an empty table, building from
`["a","b","a","c"]` and then from `["a","b"]` yields key `"a"` mapped to
`["b","c","b"]`, key `"b"` mapped to `["a"]`, and no key `"c"`. -/
theorem build_twice_accumulates :
    (buildLoop [str "a", str "b"]
        (buildLoop [str "a", str "b", str "a", str "c"] NewMarkovGenerator.Ngrams)).lookup
          (str "a") = some [str "b", str "c", str "b"] ∧
    (buildLoop [str "a", str "b"]
        (buildLoop [str "a", str "b", str "a", str "c"] NewMarkovGenerator.Ngrams)).lookup
          (str "b") = some [str "a"] ∧
    (buildLoop [str "a", str "b"]
        (buildLoop [str "a", str "b", str "a", str "c"] NewMarkovGenerator.Ngrams)).lookup
          (str "c") = none := by
  decide

theorem buildLoop_of_length_le_one (words : List GoString) (m : Ngram)
    (h : words.length ≤ 1) : buildLoop words m = m := by
  unfold buildLoop
  have h0 : words.length - 1 = 0 := by omega
  rw [h0]
  rfl

/-- C9: when the source text tokenizes to 0 or 1 tokens, `BuildNgrams` returns
without a fault and leaves the model, and so its table, unchanged; the builder
loop on such a token sequence returns the table it was given. -/
theorem BuildNgrams_noop (fuel : Nat) (mg : MarkovGenerator) (strategy : SplitStrategy)
    (N : Int) (words : List GoString)
    (htok : tokenize fuel mg.SourceText strategy N = .ok words) (hlen : words.length ≤ 1) :
    BuildNgrams fuel mg strategy N = .ok mg ∧
    ∀ T : Ngram, buildLoop words T = T := by
  constructor
  · unfold BuildNgrams
    rw [htok]
    simp only []
    rw [buildLoop_of_length_le_one words mg.Ngrams hlen]
  · exact fun T => buildLoop_of_length_le_one words T hlen

/-- Witness of C9: the table `{"a": ["b","b","c"]}` and the one-token text `"word"`. -/
theorem BuildNgrams_noop_witness :
    (tokenize 0 (str "word") SplitBySpaces 0 = .ok [str "word"] ∧ [str "word"].length ≤ 1) ∧
    (BuildNgrams 0 { Ngrams := tableABBC, SourceText := str "word" } SplitBySpaces 0 =
        .ok { Ngrams := tableABBC, SourceText := str "word" } ∧
      ∀ T : Ngram, buildLoop [str "word"] T = T) :=
  ⟨⟨by decide, by decide⟩,
    BuildNgrams_noop 0 { Ngrams := tableABBC, SourceText := str "word" } SplitBySpaces 0
      [str "word"] (by decide) (by decide)⟩

/-! ## Generator: the start key and the empty table -/

/-- C7 (counterexample): on the empty table of `NewMarkovGenerator`,
`GenerateText` returns nothing to its caller: `getRandomKey` calls
`rand.Intn(0)`, which panics. -/
theorem GenerateText_empty_table_panics :
    GenerateText NewMarkovGenerator orderEmpty (fun _ => 0) 5 = .error .intnArgument := by
  decide

/-- C7 (amended): `GenerateText` makes no empty-table check and has no error
result; on every model whose table is non-empty, for every length and every
sequence of random choices, it returns a string, with no fault. -/
theorem GenerateText_returns (mg : MarkovGenerator) (ord : KeyOrder mg.Ngrams)
    (rnd : Nat → Nat) (length : Int) (hne : mg.Ngrams ≠ ∅) :
    ∃ text, GenerateText mg ord rnd length = .ok text := by
  obtain ⟨hkey, _⟩ := getRandomKey_ok mg.Ngrams ord (rnd 0) hne
  unfold GenerateText
  rw [hkey]
  simp only []
  rw [generateLoop_eq]
  exact ⟨_, rfl⟩

/-- Witness of C7 (amended) on the table `{"a": ["b","b","c"]}`. -/
theorem GenerateText_returns_witness :
    modelABBC.Ngrams ≠ ∅ ∧ ∃ text, GenerateText modelABBC orderABBC (fun n => n) 5 = .ok text :=
  ⟨by decide, GenerateText_returns modelABBC orderABBC (fun n => n) 5 (by decide)⟩

/-- C10: for every non-empty table and every random choice, `GenerateText(0)`
returns exactly the start key that `getRandomKey` chose, which is a key of the
table, with no successor appended. -/
theorem GenerateText_zero (mg : MarkovGenerator) (ord : KeyOrder mg.Ngrams)
    (rnd : Nat → Nat) (hne : mg.Ngrams ≠ ∅) :
    ∃ start, start ∈ mg.Ngrams ∧
      getRandomKey mg.Ngrams ord (rnd 0) = .ok start ∧
      generatedTokens mg ord rnd 0 = .ok [start] ∧
      GenerateText mg ord rnd 0 = .ok start := by
  obtain ⟨hkey, hmem⟩ := getRandomKey_ok mg.Ngrams ord (rnd 0) hne
  refine ⟨_, hmem, hkey, ?_, ?_⟩
  · unfold generatedTokens
    rw [hkey]
    rfl
  · unfold GenerateText
    rw [hkey]
    rfl

/-- Witness of C10: the table built with `SplitBySpaces` from
`"the cat sat. the cat ran."`. -/
theorem GenerateText_zero_witness :
    BuildNgrams 0 { Ngrams := ∅, SourceText := str "the cat sat. the cat ran." }
        SplitBySpaces 0 = .ok modelCat ∧
    modelCat.Ngrams ≠ ∅ ∧
    ∃ start, start ∈ modelCat.Ngrams ∧
      getRandomKey modelCat.Ngrams orderCat 2 = .ok start ∧
      generatedTokens modelCat orderCat (fun n => n + 2) 0 = .ok [start] ∧
      GenerateText modelCat orderCat (fun n => n + 2) 0 = .ok start :=
  ⟨by decide, by decide, GenerateText_zero modelCat orderCat (fun n => n + 2) (by decide)⟩


/-! ## Persistence: the round trip -/

theorem length_beBytes (n x : Nat) : (beBytes n x).length = n := by
  induction n with
  | zero => rfl
  | succ n ih => simp [beBytes, ih]

theorem foldl_beBytes (n x : Nat) :
    ∀ a : Nat, (beBytes n x).foldl (fun (y : Nat) (b : Byte) => y * 256 + b.val) a
      = a * 256 ^ n + x % 256 ^ n := by
  induction n with
  | zero => intro a; simp [beBytes, Nat.mod_one]
  | succ n ih =>
    intro a
    simp only [beBytes, List.foldl_cons]
    rw [ih]
    have hb : (Fin.ofNat (x / 256 ^ n) : Byte).val = x / 256 ^ n % 256 := rfl
    rw [hb, Nat.mod_pow_succ]
    ring

theorem beValue_beBytes (n x : Nat) (h : x < 256 ^ n) : beValue (beBytes n x) = x := by
  unfold beValue
  rw [foldl_beBytes, Nat.mod_eq_of_lt h]
  simp

theorem lt_pow_uintLen (x : Nat) (h : x < 2 ^ 64) : x < 256 ^ uintLen x := by
  unfold uintLen
  split_ifs <;> assumption

theorem uintLen_bounds (x : Nat) : 1 ≤ uintLen x ∧ uintLen x ≤ 8 := by
  unfold uintLen
  split_ifs <;> omega

theorem decodeUint_encodeUint (x : Nat) (rest : List Byte) (h : x < 2 ^ 64) :
    decodeUint (encodeUint x ++ rest) = some (x, rest) := by
  unfold encodeUint
  rw [Nat.mod_eq_of_lt h]
  by_cases hs : x ≤ 0x7F
  · rw [if_pos hs]
    have hv : (Fin.ofNat x : Byte).val = x := by
      show x % 256 = x
      omega
    simp only [List.singleton_append, decodeUint, hv, hs, if_true]
  · rw [if_neg hs]
    obtain ⟨h1, h8⟩ := uintLen_bounds x
    have hv : (Fin.ofNat (256 - uintLen x) : Byte).val = 256 - uintLen x := by
      show (256 - uintLen x) % 256 = 256 - uintLen x
      omega
    have hn : 256 - (256 - uintLen x) = uintLen x := by omega
    simp only [List.cons_append, decodeUint, hv, hn]
    rw [if_neg (by omega), if_neg (by omega), if_neg (by simp [length_beBytes])]
    have ht : (beBytes (uintLen x) x ++ rest).take (uintLen x) = beBytes (uintLen x) x := by
      rw [List.take_append_of_le_length (by rw [length_beBytes])]
      exact List.take_of_length_le (by rw [length_beBytes])
    have hd : (beBytes (uintLen x) x ++ rest).drop (uintLen x) = rest := by
      rw [List.drop_append_of_le_length (by rw [length_beBytes])]
      rw [List.drop_of_length_le (by rw [length_beBytes])]
      rfl
    rw [ht, hd, beValue_beBytes _ _ (lt_pow_uintLen x h)]

theorem encodeUint_length_pos (x : Nat) : 0 < (encodeUint x).length := by
  unfold encodeUint
  split_ifs <;> simp

theorem decodeInt_encodeInt (n : Nat) (rest : List Byte) (h : n < 2 ^ 31) :
    decodeInt (encodeInt (n : Int) ++ rest) = some ((n : Int), rest) := by
  unfold encodeInt decodeInt
  rw [if_neg (by omega), Int.toNat_ofNat, decodeUint_encodeUint _ _ (by omega)]
  simp only []
  rw [if_neg (by omega)]
  have h2 : 2 * n / 2 = n := by omega
  rw [h2]

theorem decString_encString (s : GoString) (rest : List Byte) (h : s.length < 2 ^ 64) :
    decString (encString s ++ rest) = some (s, rest) := by
  unfold decString encString
  rw [List.append_assoc, decodeUint_encodeUint _ _ h]
  simp only []
  rw [if_neg (by simp), List.take_left, List.drop_left]

theorem decStrings_encode (l : List GoString) (rest : List Byte)
    (h : ∀ s ∈ l, s.length < 2 ^ 64) :
    decStrings l.length (l.flatMap encString ++ rest) = some (l, rest) := by
  induction l with
  | nil => rfl
  | cons s l ih =>
    simp only [List.length_cons, List.flatMap_cons, List.append_assoc, decStrings]
    rw [decString_encString _ _ (h s (List.mem_cons_self s l))]
    simp only []
    rw [ih (fun s1 hs1 => h s1 (List.mem_cons_of_mem s hs1))]

theorem decStringSlice_encStringSlice (l : List GoString) (rest : List Byte)
    (hl : l.length < 2 ^ 64) (h : ∀ s ∈ l, s.length < 2 ^ 64) :
    decStringSlice (encStringSlice l ++ rest) = some (l, rest) := by
  unfold decStringSlice encStringSlice
  rw [List.append_assoc, decodeUint_encodeUint _ _ hl]
  exact decStrings_encode l rest h

theorem decEntries_encode (entries : List (GoString × List GoString)) (rest : List Byte)
    (h : EntriesFit entries) :
    ∀ m : Ngram,
      decEntries entries.length m
          (entries.flatMap (fun e => encString e.1 ++ encStringSlice e.2) ++ rest) =
        some (entries.foldl (fun m e => m.insert e.1 e.2) m, rest) := by
  induction entries with
  | nil => intro m; rfl
  | cons e entries ih =>
    intro m
    obtain ⟨hk, hl, hs⟩ := h e (List.mem_cons_self e entries)
    simp only [List.length_cons, List.flatMap_cons, List.append_assoc, decEntries, List.foldl_cons]
    rw [decString_encString _ _ hk]
    simp only []
    rw [decStringSlice_encStringSlice _ _ hl hs]
    simp only []
    exact ih (fun e1 he1 => h e1 (List.mem_cons_of_mem e he1)) _

theorem decodeMap_encodeMap (entries : List (GoString × List GoString)) (rest : List Byte)
    (hn : entries.length < 2 ^ 64) (h : EntriesFit entries) (m : Ngram) :
    decodeMap m (encodeMap entries ++ rest) =
      some (entries.foldl (fun m e => m.insert e.1 e.2) m, rest) := by
  unfold decodeMap encodeMap
  rw [List.append_assoc, decodeUint_encodeUint _ _ hn]
  exact decEntries_encode entries rest h m

theorem length_le_length_flatMap {α : Type} (l : List α) (f : α → List Byte)
    (hf : ∀ a, 0 < (f a).length) : l.length ≤ (l.flatMap f).length := by
  induction l with
  | nil => simp
  | cons a l ih =>
    simp only [List.length_cons, List.flatMap_cons, List.length_append]
    have := hf a
    omega

theorem length_le_of_mem_flatMap {α : Type} (l : List α) (f : α → List Byte) (a : α)
    (ha : a ∈ l) : (f a).length ≤ (l.flatMap f).length := by
  induction l with
  | nil => simp at ha
  | cons b l ih =>
    simp only [List.flatMap_cons, List.length_append]
    rcases List.mem_cons.1 ha with h | h
    · subst h; omega
    · have := ih h; omega

theorem encString_length_pos (s : GoString) : 0 < (encString s).length := by
  unfold encString
  rw [List.length_append]
  have := encodeUint_length_pos s.length
  omega

theorem length_le_encString (s : GoString) : s.length ≤ (encString s).length := by
  unfold encString
  rw [List.length_append]
  omega

theorem encStringSlice_bounds (l : List GoString) :
    l.length ≤ (encStringSlice l).length ∧
      ∀ s ∈ l, s.length ≤ (encStringSlice l).length := by
  unfold encStringSlice
  rw [List.length_append]
  constructor
  · have := length_le_length_flatMap l encString encString_length_pos
    omega
  · intro s hs
    have h1 := length_le_of_mem_flatMap l encString s hs
    have h2 := length_le_encString s
    omega

theorem entriesFit_of_length (entries : List (GoString × List GoString)) (b : Nat)
    (h : (encodeMap entries).length < b) :
    entries.length < b ∧
      ∀ e ∈ entries, e.1.length < b ∧ e.2.length < b ∧ ∀ s ∈ e.2, s.length < b := by
  unfold encodeMap at h
  rw [List.length_append] at h
  constructor
  · have := length_le_length_flatMap entries
      (fun e => encString e.1 ++ encStringSlice e.2)
      (fun e => by rw [List.length_append]; have := encString_length_pos e.1; omega)
    omega
  · intro e he
    have h1 := length_le_of_mem_flatMap entries
      (fun e => encString e.1 ++ encStringSlice e.2) e he
    simp only [List.length_append] at h1
    have h2 := length_le_encString e.1
    obtain ⟨h3, h4⟩ := encStringSlice_bounds e.2
    refine ⟨by omega, by omega, fun s hs => ?_⟩
    have := h4 s hs
    omega

theorem lookup_foldl_insert (T : Ngram) (keys : List GoString) (k : GoString) :
    ∀ m : Ngram,
      ((keys.map (fun k => (k, T.at k))).foldl (fun m e => m.insert e.1 e.2) m).lookup k =
        if k ∈ keys then some (T.at k) else m.lookup k := by
  induction keys with
  | nil => intro m; simp
  | cons a keys ih =>
    intro m
    simp only [List.map_cons, List.foldl_cons]
    rw [ih]
    by_cases hk : k ∈ keys
    · rw [if_pos hk, if_pos (List.mem_cons_of_mem a hk)]
    · rw [if_neg hk]
      by_cases ha : k = a
      · subst ha
        rw [if_pos (List.mem_cons_self k keys), Finmap.lookup_insert]
      · rw [if_neg (by simp [ha, hk]), Finmap.lookup_insert_of_ne _ ha]

theorem lookup_decoded (T m : Ngram) (ord : KeyOrder T) (k : GoString) :
    ((entriesOf T ord).foldl (fun m e => m.insert e.1 e.2) m).lookup k =
      if k ∈ T then T.lookup k else m.lookup k := by
  unfold entriesOf
  rw [lookup_foldl_insert]
  by_cases hk : k ∈ T
  · rw [if_pos ((ord.mem_iff k).2 hk), if_pos hk]
    obtain ⟨v, hv⟩ := Finmap.mem_iff.1 hk
    simp [Ngram.at, hv]
  · rw [if_neg (fun h => hk ((ord.mem_iff k).1 h)), if_neg hk]

theorem decoded_into_empty (T : Ngram) (ord : KeyOrder T) :
    (entriesOf T ord).foldl (fun m e => m.insert e.1 e.2) (∅ : Ngram) = T := by
  apply Finmap.ext_lookup
  intro k
  rw [lookup_decoded]
  by_cases hk : k ∈ T
  · rw [if_pos hk]
  · rw [if_neg hk, Finmap.lookup_empty, Finmap.lookup_eq_none.2 hk]

theorem gobDecode_gobEncode (ty : GobTypes) (T m : Ngram) (ord : KeyOrder T)
    (hfit : (gobEncode ty T ord).length < 2 ^ 63) :
    gobDecode ty m (gobEncode ty T ord) =
      some ((entriesOf T ord).foldl (fun m e => m.insert e.1 e.2) m) := by
  have hlen : (gobEncode ty T ord).length =
      ty.typeDefs.length + (encodeUint (valueBody ty T ord).length).length +
        ((encodeInt ty.mapId).length + 1 + (encodeMap (entriesOf T ord)).length) := by
    simp [gobEncode, valueBody, List.length_append]
    omega
  have hbody : (valueBody ty T ord).length < 2 ^ 64 := by
    have : (valueBody ty T ord).length =
        (encodeInt ty.mapId).length + 1 + (encodeMap (entriesOf T ord)).length := by
      simp [valueBody, List.length_append]
      omega
    omega
  have hmap : (encodeMap (entriesOf T ord)).length < 2 ^ 64 := by omega
  obtain ⟨hn, hfits⟩ := entriesFit_of_length _ _ hmap
  unfold gobDecode gobEncode
  have hpre : ty.typeDefs.isPrefixOf
      (ty.typeDefs ++ encodeUint (valueBody ty T ord).length ++ valueBody ty T ord) = true := by
    rw [List.isPrefixOf_iff_prefix, List.append_assoc]
    exact List.prefix_append _ _
  rw [if_pos hpre, List.append_assoc, List.drop_left]
  unfold decodeValueMessage
  rw [decodeUint_encodeUint _ _ hbody]
  simp only []
  rw [if_neg (by simp), List.take_length]
  have h1 : valueBody ty T ord =
      encodeInt (ty.mapId : Int) ++ ([0] ++ encodeMap (entriesOf T ord)) := by
    simp [valueBody]
  rw [h1, decodeInt_encodeInt _ _ ty.mapIdLt]
  simp only [ne_eq, not_true_eq_false, if_false]
  have h2 : decodeUint ([0] ++ encodeMap (entriesOf T ord)) =
      some (0, encodeMap (entriesOf T ord)) := rfl
  rw [h2]
  simp only [ne_eq, not_true_eq_false, if_false]
  have h3 := decodeMap_encodeMap (entriesOf T ord) [] hn hfits m
  rw [List.append_nil] at h3
  rw [h3]

/-- C5: for every table `T`, when `WriteNgrams` can write the file (the path is
writable and the encoded stream fits in a Go buffer), it returns, and
`ReadNgrams` into a fresh model then returns a model whose table is `T` itself:
the same keys and, for every key, the same value sequence. -/
theorem write_read_roundtrip (ty : GobTypes) (mg : MarkovGenerator) (ord : KeyOrder mg.Ngrams)
    (fs : FileSystem) (path : GoString) (hw : fs.writable path = true)
    (hfit : (gobEncode ty mg.Ngrams ord).length < 2 ^ 63) :
    WriteNgrams ty mg ord fs path = .ok (mg, fs.store path (gobEncode ty mg.Ngrams ord)) ∧
    ReadNgrams ty NewMarkovGenerator (fs.store path (gobEncode ty mg.Ngrams ord)) path =
      .ok { Ngrams := mg.Ngrams, SourceText := [] } := by
  constructor
  · unfold WriteNgrams
    simp only [hw, if_true]
  · unfold ReadNgrams FileSystem.store
    simp only [if_true]
    have hdec := gobDecode_gobEncode ty mg.Ngrams NewMarkovGenerator.Ngrams ord hfit
    rw [hdec]
    simp only []
    have hT : (entriesOf mg.Ngrams ord).foldl (fun m e => m.insert e.1 e.2)
        NewMarkovGenerator.Ngrams = mg.Ngrams := decoded_into_empty mg.Ngrams ord
    rw [hT]
    rfl

/-- Witness of C5: the empty table, the single-key table `{"a": ["b","b","c"]}`
with a repeated successor, and the table of `"the cat sat. the cat ran."`. -/
theorem write_read_roundtrip_witness :
    (emptyDisk.writable (str "ngrams.gob") = true ∧
      (gobEncode typesNgram NewMarkovGenerator.Ngrams orderEmpty).length < 2 ^ 63 ∧
      WriteNgrams typesNgram NewMarkovGenerator orderEmpty emptyDisk (str "ngrams.gob") =
        .ok (NewMarkovGenerator, emptyDisk.store (str "ngrams.gob")
          (gobEncode typesNgram NewMarkovGenerator.Ngrams orderEmpty)) ∧
      ReadNgrams typesNgram NewMarkovGenerator (emptyDisk.store (str "ngrams.gob")
          (gobEncode typesNgram NewMarkovGenerator.Ngrams orderEmpty)) (str "ngrams.gob") =
        .ok { Ngrams := NewMarkovGenerator.Ngrams, SourceText := [] }) ∧
    (emptyDisk.writable (str "ngrams.gob") = true ∧
      (gobEncode typesNgram modelABBC.Ngrams orderABBC).length < 2 ^ 63 ∧
      WriteNgrams typesNgram modelABBC orderABBC emptyDisk (str "ngrams.gob") =
        .ok (modelABBC, emptyDisk.store (str "ngrams.gob")
          (gobEncode typesNgram modelABBC.Ngrams orderABBC)) ∧
      ReadNgrams typesNgram NewMarkovGenerator (emptyDisk.store (str "ngrams.gob")
          (gobEncode typesNgram modelABBC.Ngrams orderABBC)) (str "ngrams.gob") =
        .ok { Ngrams := modelABBC.Ngrams, SourceText := [] }) ∧
    (emptyDisk.writable (str "ngrams.gob") = true ∧
      (gobEncode typesNgram modelCat.Ngrams orderCat).length < 2 ^ 63 ∧
      WriteNgrams typesNgram modelCat orderCat emptyDisk (str "ngrams.gob") =
        .ok (modelCat, emptyDisk.store (str "ngrams.gob")
          (gobEncode typesNgram modelCat.Ngrams orderCat)) ∧
      ReadNgrams typesNgram NewMarkovGenerator (emptyDisk.store (str "ngrams.gob")
          (gobEncode typesNgram modelCat.Ngrams orderCat)) (str "ngrams.gob") =
        .ok { Ngrams := modelCat.Ngrams, SourceText := [] }) :=
  ⟨⟨rfl, by decide,
      write_read_roundtrip typesNgram NewMarkovGenerator orderEmpty emptyDisk (str "ngrams.gob")
        rfl (by decide)⟩,
    ⟨rfl, by decide,
      write_read_roundtrip typesNgram modelABBC orderABBC emptyDisk (str "ngrams.gob")
        rfl (by decide)⟩,
    ⟨rfl, by decide,
      write_read_roundtrip typesNgram modelCat orderCat emptyDisk (str "ngrams.gob")
        rfl (by decide)⟩⟩

/-! ## The fixed-width tokenizer: chunks in bytes -/

theorem ceilDiv_step (x n : Nat) (hn : 1 ≤ n) (hx : n ≤ x) :
    (x + n - 1) / n = (x - n + n - 1) / n + 1 := by
  have h : x + n - 1 = (x - n + n - 1) + n := by omega
  rw [h, Nat.add_div_right _ (by omega)]

theorem ceilDiv_small (x n : Nat) (hx1 : 1 ≤ x) (hx : x ≤ n) : (x + n - 1) / n = 1 := by
  have h : x + n - 1 = (x - 1) + n := by omega
  rw [h, Nat.add_div_right _ (by omega), Nat.div_eq_of_lt (by omega)]

theorem ceilDiv_zero (n : Nat) (hn : 1 ≤ n) : (0 + n - 1) / n = 0 := by
  rw [Nat.zero_add]
  exact Nat.div_eq_of_lt (by omega)

theorem splitByNCharactersLoop_spec (s : GoString) (n : Nat) (hn : 1 ≤ n) :
    ∀ (fuel j : Nat) (result : List GoString), s.length - j < fuel →
      ∃ chunks, splitByNCharactersLoop s (n : Int) fuel (j : Int) result = .ok (result ++ chunks) ∧
        chunks.flatten = s.drop j ∧
        chunks.length = (s.length - j + n - 1) / n ∧
        (∀ c ∈ chunks.dropLast, c.length = n) ∧
        (∀ c ∈ chunks.getLast?, 1 ≤ c.length ∧ c.length ≤ n) := by
  intro fuel
  induction fuel with
  | zero => intro j result h; omega
  | succ fuel ih =>
    intro j result hfuel
    unfold splitByNCharactersLoop
    by_cases hlt : j < s.length
    · have hlt2 : (j : Int) < (s.length : Int) := by exact_mod_cast hlt
      rw [if_pos hlt2]
      simp only []
      by_cases hover : j + n > s.length
      · -- the last chunk: `end` is cut down to `len(s)`
        have hover2 : (j : Int) + (n : Int) > (s.length : Int) := by exact_mod_cast hover
        rw [if_pos hover2, if_pos ⟨by omega, by omega, le_refl _⟩]
        have hcast : (j : Int) + (n : Int) = ((j + n : Nat) : Int) := by push_cast; rfl
        rw [hcast]
        obtain ⟨chunks, hrun, hflat, hlen, _, _⟩ :=
          ih (j + n) (result ++ [sliceStr s (j : Int).toNat (s.length : Int).toNat]) (by omega)
        have h0 : s.length - (j + n) = 0 := by omega
        rw [h0, ceilDiv_zero n hn] at hlen
        have hnil : chunks = [] := List.length_eq_zero.1 hlen
        subst hnil
        have hslice : sliceStr s (j : Int).toNat (s.length : Int).toNat = s.drop j := by
          simp only [sliceStr, Int.toNat_ofNat]
          exact List.take_of_length_le (by rw [List.length_drop])
        refine ⟨[s.drop j], ?_, by simp, ?_, by simp, ?_⟩
        · rw [hrun, hslice, List.append_nil]
        · rw [List.length_singleton, ceilDiv_small _ n (by omega) (by omega)]
        · intro c hc
          simp only [List.getLast?_singleton, Option.mem_def, Option.some.injEq] at hc
          subst hc
          rw [List.length_drop]
          omega
      · -- a full chunk of `n` bytes
        have hover2 : ¬ (j : Int) + (n : Int) > (s.length : Int) := by
          intro h; exact hover (by exact_mod_cast h)
        rw [if_neg hover2, if_pos ⟨by omega, by omega, by omega⟩]
        have hcast : (j : Int) + (n : Int) = ((j + n : Nat) : Int) := by push_cast; rfl
        rw [hcast]
        obtain ⟨chunks, hrun, hflat, hlen, hfull, hlast⟩ :=
          ih (j + n) (result ++ [sliceStr s (j : Int).toNat ((j + n : Nat) : Int).toNat]) (by omega)
        have hslice : sliceStr s (j : Int).toNat ((j + n : Nat) : Int).toNat =
            (s.drop j).take n := by
          simp only [sliceStr, Int.toNat_ofNat]
          congr 1
          omega
        have hclen : ((s.drop j).take n).length = n := by
          rw [List.length_take, List.length_drop]
          omega
        refine ⟨(s.drop j).take n :: chunks, ?_, ?_, ?_, ?_, ?_⟩
        · rw [hrun, hslice, List.append_assoc]
          rfl
        · rw [List.flatten_cons, hflat, ← List.drop_drop, List.take_append_drop]
        · rw [List.length_cons, hlen, ceilDiv_step (s.length - j) n hn (by omega)]
          have : s.length - (j + n) = s.length - j - n := by omega
          rw [this]
        · cases chunks with
          | nil => simp
          | cons c cs =>
            intro d hd
            rw [List.dropLast_cons₂, List.mem_cons] at hd
            rcases hd with hd | hd
            · rw [hd]; exact hclen
            · exact hfull d hd
        · cases chunks with
          | nil =>
            intro c hc
            simp only [List.getLast?_singleton, Option.mem_def, Option.some.injEq] at hc
            subst hc
            rw [hclen]
            omega
          | cons c cs =>
            intro d hd
            rw [List.getLast?_cons_cons] at hd
            exact hlast d hd
    · have hlt2 : ¬ (j : Int) < (s.length : Int) := by
        intro h; exact hlt (by exact_mod_cast h)
      rw [if_neg hlt2]
      have h0 : s.length - j = 0 := by omega
      refine ⟨[], by simp, ?_, ?_, by simp, by simp⟩
      · rw [List.drop_of_length_le (by omega)]
        rfl
      · rw [h0, ceilDiv_zero n hn]
        rfl

/-- C11: for every text `s` and every width `N ≥ 1`, `splitByNCharacters`
terminates within `len(s)` iterations and returns `ceil(len(s) / N)` chunks
whose concatenation is `s`; counted in bytes, every chunk before the last has
length `N` and the last has length between 1 and `N`; `("abcdefg", 3)` gives
`["abc", "def", "g"]`. -/
theorem splitByNCharacters_chunks (s : GoString) (N : Int) (hN : 1 ≤ N) :
    ∃ chunks, splitByNCharacters (s.length + 1) s N = .ok chunks ∧
      chunks.flatten = s ∧
      chunks.length = (s.length + N.toNat - 1) / N.toNat ∧
      (∀ c ∈ chunks.dropLast, (c.length : Int) = N) ∧
      (∀ c ∈ chunks.getLast?, 1 ≤ (c.length : Int) ∧ (c.length : Int) ≤ N) ∧
      splitByNCharacters 8 (str "abcdefg") 3 = .ok [str "abc", str "def", str "g"] := by
  have hcast : ((N.toNat : Nat) : Int) = N := Int.toNat_of_nonneg (by omega)
  obtain ⟨chunks, hrun, hflat, hlen, hfull, hlast⟩ :=
    splitByNCharactersLoop_spec s N.toNat (by omega) (s.length + 1) 0 [] (by omega)
  rw [hcast] at hrun
  refine ⟨chunks, ?_, ?_, ?_, ?_, ?_, by decide⟩
  · unfold splitByNCharacters
    rw [show (0 : Int) = ((0 : Nat) : Int) from rfl, hrun, List.nil_append]
  · rw [hflat, List.drop_zero]
  · rw [hlen, Nat.sub_zero]
  · intro c hc
    rw [hfull c hc, hcast]
  · intro c hc
    have := hlast c hc
    omega

/-- Witness of C11 on the seven bytes of `"abcdefg"` with width 3. -/
theorem splitByNCharacters_chunks_witness :
    (1 : Int) ≤ 3 ∧
    ∃ chunks, splitByNCharacters ((str "abcdefg").length + 1) (str "abcdefg") 3 = .ok chunks ∧
      chunks.flatten = str "abcdefg" ∧
      chunks.length = ((str "abcdefg").length + (3 : Int).toNat - 1) / (3 : Int).toNat ∧
      (∀ c ∈ chunks.dropLast, (c.length : Int) = 3) ∧
      (∀ c ∈ chunks.getLast?, 1 ≤ (c.length : Int) ∧ (c.length : Int) ≤ 3) ∧
      splitByNCharacters 8 (str "abcdefg") 3 = .ok [str "abc", str "def", str "g"] :=
  ⟨by decide, splitByNCharacters_chunks (str "abcdefg") 3 (by decide)⟩

/-! ## The whitespace tokenizer: concatenation of the tokens -/

theorem byte_eq_ofNat (b : Byte) (x : Nat) (h : x % 256 = b.val) : (Fin.ofNat x : Byte) = b :=
  Fin.ext h

theorem isCont_iff (b : Byte) : isCont b = true ↔ 0x80 ≤ b.val ∧ b.val ≤ 0xBF := by
  simp [isCont]

theorem encodeRune_one (b : Byte) (h : b.val < 0x80) : encodeRune b.val = [b] := by
  unfold encodeRune
  rw [if_pos h, byte_eq_ofNat b _ (by omega)]

theorem encodeRune_two (b b1 : Byte) (h : 0xC2 ≤ b.val ∧ b.val ≤ 0xDF)
    (h1 : 0x80 ≤ b1.val ∧ b1.val ≤ 0xBF) :
    encodeRune (b.val % 32 * 64 + contBits b1) = [b, b1] := by
  unfold encodeRune contBits
  rw [if_neg (by omega), if_pos (by omega), byte_eq_ofNat b _ (by omega),
    byte_eq_ofNat b1 _ (by omega)]

theorem encodeRune_three (b b1 b2 : Byte) (h : 0xE0 ≤ b.val ∧ b.val ≤ 0xEF)
    (hlo : (if b.val = 0xE0 then 0xA0 else 0x80) ≤ b1.val)
    (hhi : b1.val ≤ (if b.val = 0xED then 0x9F else 0xBF))
    (h2 : 0x80 ≤ b2.val ∧ b2.val ≤ 0xBF) :
    encodeRune (b.val % 16 * 4096 + contBits b1 * 64 + contBits b2) = [b, b1, b2] := by
  unfold encodeRune contBits
  have hr1 : ¬ b.val % 16 * 4096 + b1.val % 64 * 64 + b2.val % 64 < 0x800 := by
    split_ifs at hlo hhi <;> omega
  have hr2 : ¬ ((0xD800 ≤ b.val % 16 * 4096 + b1.val % 64 * 64 + b2.val % 64 ∧
      b.val % 16 * 4096 + b1.val % 64 * 64 + b2.val % 64 ≤ 0xDFFF) ∨
      0x10FFFF < b.val % 16 * 4096 + b1.val % 64 * 64 + b2.val % 64) := by
    split_ifs at hlo hhi <;> omega
  have hb1 : 0x80 ≤ b1.val ∧ b1.val ≤ 0xBF := by
    split_ifs at hlo hhi <;> omega
  rw [if_neg (by omega), if_neg hr1, if_neg hr2, if_pos (by omega),
    byte_eq_ofNat b _ (by omega), byte_eq_ofNat b1 _ (by omega), byte_eq_ofNat b2 _ (by omega)]

theorem encodeRune_four (b b1 b2 b3 : Byte) (h : 0xF0 ≤ b.val ∧ b.val ≤ 0xF4)
    (hlo : (if b.val = 0xF0 then 0x90 else 0x80) ≤ b1.val)
    (hhi : b1.val ≤ (if b.val = 0xF4 then 0x8F else 0xBF))
    (h2 : 0x80 ≤ b2.val ∧ b2.val ≤ 0xBF) (h3 : 0x80 ≤ b3.val ∧ b3.val ≤ 0xBF) :
    encodeRune (b.val % 8 * 262144 + contBits b1 * 4096 + contBits b2 * 64 + contBits b3) =
      [b, b1, b2, b3] := by
  unfold encodeRune contBits
  have hb1 : 0x80 ≤ b1.val ∧ b1.val ≤ 0xBF := by
    split_ifs at hlo hhi <;> omega
  have hr1 : 0x10000 ≤
      b.val % 8 * 262144 + b1.val % 64 * 4096 + b2.val % 64 * 64 + b3.val % 64 := by
    split_ifs at hlo hhi <;> omega
  have hr2 : b.val % 8 * 262144 + b1.val % 64 * 4096 + b2.val % 64 * 64 + b3.val % 64
      ≤ 0x10FFFF := by
    split_ifs at hlo hhi <;> omega
  rw [if_neg (by omega), if_neg (by omega), if_neg (by omega), if_neg (by omega),
    byte_eq_ofNat b _ (by omega), byte_eq_ofNat b1 _ (by omega), byte_eq_ofNat b2 _ (by omega),
    byte_eq_ofNat b3 _ (by omega)]

theorem decodeRune_cases (b : Byte) (rest : GoString) :
    decodeRune (b :: rest) = (runeError, 1) ∨
      (1 ≤ (decodeRune (b :: rest)).2 ∧
        encodeRune (decodeRune (b :: rest)).1 = (b :: rest).take (decodeRune (b :: rest)).2) := by
  by_cases h1 : b.val < 0x80
  · right
    have hd : decodeRune (b :: rest) = (b.val, 1) := by
      simp only [decodeRune, h1, if_true]
    rw [hd]
    exact ⟨le_refl 1, encodeRune_one b h1⟩
  by_cases h2 : 0xC2 ≤ b.val ∧ b.val ≤ 0xDF
  · rcases rest with _ | ⟨b1, rest⟩
    · left
      simp only [decodeRune, h1, h2, if_true, if_false, and_self]
    · by_cases hc : isCont b1 = true
      · right
        have hd : decodeRune (b :: b1 :: rest) = (b.val % 32 * 64 + contBits b1, 2) := by
          simp only [decodeRune, h1, h2, hc, if_true, if_false, and_self]
        rw [hd]
        exact ⟨Nat.le_succ 1, encodeRune_two b b1 h2 ((isCont_iff b1).1 hc)⟩
      · left
        simp only [decodeRune, h1, h2, hc, if_true, if_false, and_self]
        rfl
  by_cases h3 : 0xE0 ≤ b.val ∧ b.val ≤ 0xEF
  · rcases rest with _ | ⟨b1, _ | ⟨b2, rest⟩⟩
    · left
      simp only [decodeRune, h1, h2, h3, if_true, if_false, and_self]
    · left
      simp only [decodeRune, h1, h2, h3, if_true, if_false, and_self]
    · by_cases hc : (if b.val = 0xE0 then 0xA0 else 0x80) ≤ b1.val ∧
          b1.val ≤ (if b.val = 0xED then 0x9F else 0xBF) ∧ isCont b2 = true
      · right
        have hd : decodeRune (b :: b1 :: b2 :: rest) =
            (b.val % 16 * 4096 + contBits b1 * 64 + contBits b2, 3) := by
          simp only [decodeRune, h1, h2, h3, if_true, if_false, and_self]
          rw [if_pos hc]
        rw [hd]
        exact ⟨Nat.le_add_left 1 2, encodeRune_three b b1 b2 h3 hc.1 hc.2.1 ((isCont_iff b2).1 hc.2.2)⟩
      · left
        simp only [decodeRune, h1, h2, h3, if_true, if_false, and_self]
        rw [if_neg hc]
  by_cases h4 : 0xF0 ≤ b.val ∧ b.val ≤ 0xF4
  · rcases rest with _ | ⟨b1, _ | ⟨b2, _ | ⟨b3, rest⟩⟩⟩
    · left
      simp only [decodeRune, h1, h2, h3, h4, if_true, if_false, and_self]
    · left
      simp only [decodeRune, h1, h2, h3, h4, if_true, if_false, and_self]
    · left
      simp only [decodeRune, h1, h2, h3, h4, if_true, if_false, and_self]
    · by_cases hc : (if b.val = 0xF0 then 0x90 else 0x80) ≤ b1.val ∧
          b1.val ≤ (if b.val = 0xF4 then 0x8F else 0xBF) ∧ isCont b2 = true ∧ isCont b3 = true
      · right
        have hd : decodeRune (b :: b1 :: b2 :: b3 :: rest) =
            (b.val % 8 * 262144 + contBits b1 * 4096 + contBits b2 * 64 + contBits b3, 4) := by
          simp only [decodeRune, h1, h2, h3, h4, if_true, if_false, and_self]
          rw [if_pos hc]
        rw [hd]
        exact ⟨Nat.le_add_left 1 3, encodeRune_four b b1 b2 b3 h4 hc.1 hc.2.1
          ((isCont_iff b2).1 hc.2.2.1) ((isCont_iff b3).1 hc.2.2.2)⟩
      · left
        simp only [decodeRune, h1, h2, h3, h4, if_true, if_false, and_self]
        rw [if_neg hc]
  · left
    simp only [decodeRune, h1, h2, h3, h4, if_true, if_false, and_self]

theorem decodeRune_width_pos (b : Byte) (rest : GoString) :
    1 ≤ (decodeRune (b :: rest)).2 := by
  rcases decodeRune_cases b rest with h | h
  · rw [h]
  · exact h.1

theorem flatMap_encodeRune_runesFuel :
    ∀ (fuel : Nat) (s : GoString), s.length ≤ fuel → validUTF8Fuel fuel s = true →
      (runesFuel fuel s).flatMap encodeRune = s := by
  intro fuel
  induction fuel with
  | zero =>
    intro s hlen _
    have : s = [] := List.length_eq_zero.1 (Nat.le_zero.1 hlen)
    subst this
    rfl
  | succ fuel ih =>
    intro s hlen hvalid
    cases s with
    | nil => rfl
    | cons b rest =>
      have hw := decodeRune_width_pos b rest
      simp only [validUTF8Fuel, Bool.and_eq_true, Bool.not_eq_true', Bool.and_eq_false_imp,
        decide_eq_true_eq, decide_eq_false_iff_not] at hvalid
      obtain ⟨hne, hrest⟩ := hvalid
      simp only [runesFuel, List.flatMap_cons]
      have hdrop : ((b :: rest).drop (decodeRune (b :: rest)).2).length ≤ fuel := by
        rw [List.length_drop]
        simp only [List.length_cons] at hlen ⊢
        omega
      rw [ih _ hdrop hrest]
      rcases decodeRune_cases b rest with h | h
      · exact absurd (congrArg Prod.snd h) (hne (congrArg Prod.fst h))
      · rw [h.2, List.take_append_drop]

theorem flatMap_encodeRune_runes (s : GoString) (h : validUTF8 s = true) :
    (runes s).flatMap encodeRune = s :=
  flatMap_encodeRune_runesFuel s.length s (le_refl _) h

theorem splitKeepSpaces_flatten (s : GoString) :
    (splitKeepSpaces s).flatten = (runes s).flatMap encodeRune := by
  have hinit : SplitInv [] [] := ⟨by simp, List.chain'_nil, by simp, by simp, by simp⟩
  obtain ⟨_, hflat⟩ := splitKeepSpacesLoop_inv (runes s) [] [] hinit
  unfold splitKeepSpaces
  by_cases hw : (splitKeepSpacesLoop (runes s) [] []).2 = []
  · simp only [ne_eq, hw, not_true_eq_false, if_false]
    rw [hw] at hflat
    simpa using hflat
  · simp only [ne_eq, hw, not_false_eq_true, if_true]
    simpa using hflat

/-- C12 (counterexample): on the four bytes `63 61 66 E9` (`café` in Latin-1,
not valid UTF-8) the tokens of `splitKeepSpaces` do not concatenate to the
text: the byte `E9` comes back as `EF BF BD`, the encoding of U+FFFD. -/
theorem splitKeepSpaces_replaces_invalid_bytes :
    splitKeepSpaces [0x63, 0x61, 0x66, 0xE9] = [[0x63, 0x61, 0x66, 0xEF, 0xBF, 0xBD]] ∧
    (splitKeepSpaces [0x63, 0x61, 0x66, 0xE9]).flatten ≠ [0x63, 0x61, 0x66, 0xE9] := by
  decide

/-- C12 (amended): for every text that is valid UTF-8, the tokens of
`splitKeepSpaces` concatenated in order give back the text exactly. -/
theorem splitKeepSpaces_concat (s : GoString) (h : validUTF8 s = true) :
    (splitKeepSpaces s).flatten = s := by
  rw [splitKeepSpaces_flatten, flatMap_encodeRune_runes s h]

/-- Witness of C12 (amended) on a text with two-, three- and four-byte characters. -/
theorem splitKeepSpaces_concat_witness :
    validUTF8 (str "naïve café € 😀 ok") = true ∧
    (splitKeepSpaces (str "naïve café € 😀 ok")).flatten = str "naïve café € 😀 ok" :=
  ⟨by decide, splitKeepSpaces_concat (str "naïve café € 😀 ok") (by decide)⟩

/-! ## The whitespace tokenizer: texts of separators -/

theorem runesFuel_ascii :
    ∀ (fuel : Nat) (s : GoString), s.length ≤ fuel → (∀ b ∈ s, b.val < 0x80) →
      runesFuel fuel s = s.map (fun b => b.val) := by
  intro fuel
  induction fuel with
  | zero =>
    intro s hlen _
    have : s = [] := List.length_eq_zero.1 (Nat.le_zero.1 hlen)
    subst this
    rfl
  | succ fuel ih =>
    intro s hlen hs
    cases s with
    | nil => rfl
    | cons b rest =>
      have hb : b.val < 0x80 := hs b (List.mem_cons_self b rest)
      have hd : decodeRune (b :: rest) = (b.val, 1) := by
        simp only [decodeRune, hb, if_true]
      simp only [runesFuel, hd, List.map_cons, List.drop_succ_cons, List.drop_zero]
      rw [ih rest (by simpa using hlen) (fun c hc => hs c (List.mem_cons_of_mem b hc))]

theorem splitKeepSpacesLoop_separators :
    ∀ (rs : List Nat) (result : List GoString),
      (∀ c ∈ rs, c = spaceRune ∨ c = newlineRune) →
      splitKeepSpacesLoop rs result [] = (result ++ rs.map encodeRune, []) := by
  intro rs
  induction rs with
  | nil => intro result _; simp [splitKeepSpacesLoop]
  | cons c rs ih =>
    intro result h
    have hc := h c (List.mem_cons_self c rs)
    unfold splitKeepSpacesLoop
    rw [if_pos hc]
    simp only [ne_eq, not_true_eq_false, if_false]
    rw [ih _ (fun d hd => h d (List.mem_cons_of_mem c hd))]
    simp

/-- C13 (counterexample): tab and carriage return are not separators of
`splitKeepSpaces`; the text of two tabs gives one token of two characters. -/
theorem splitKeepSpaces_tabs_one_token :
    splitKeepSpaces [0x09, 0x09] = [[0x09, 0x09]] ∧
    (splitKeepSpaces [0x09, 0x09]).length ≠ 2 ∧
    splitKeepSpaces [0x20, 0x0D, 0x0D, 0x0A] = [[0x20], [0x0D, 0x0D], [0x0A]] := by
  decide

/-- C13 (amended): for every text of length `n` that consists only of spaces
and newlines, `splitKeepSpaces` returns exactly `n` tokens, each a single
character: the characters of the text in order. -/
theorem splitKeepSpaces_separators (s : GoString) (h : ∀ b ∈ s, b = 0x20 ∨ b = 0x0A) :
    splitKeepSpaces s = s.map (fun b => [b]) ∧
    (splitKeepSpaces s).length = s.length ∧
    ∀ t ∈ splitKeepSpaces s, t.length = 1 := by
  have hascii : ∀ b ∈ s, b.val < 0x80 := by
    intro b hb
    rcases h b hb with e | e <;> subst e <;> decide
  have hrunes : runes s = s.map (fun b => b.val) := runesFuel_ascii s.length s (le_refl _) hascii
  have hsep : ∀ c ∈ runes s, c = spaceRune ∨ c = newlineRune := by
    intro c hc
    rw [hrunes, List.mem_map] at hc
    obtain ⟨b, hb, rfl⟩ := hc
    rcases h b hb with e | e <;> subst e
    · exact Or.inl rfl
    · exact Or.inr rfl
  have hsplit : splitKeepSpaces s = s.map (fun b => [b]) := by
    unfold splitKeepSpaces
    rw [splitKeepSpacesLoop_separators (runes s) [] hsep]
    simp only [ne_eq, not_true_eq_false, if_false, List.nil_append]
    rw [hrunes, List.map_map]
    apply List.map_congr_left
    intro b hb
    exact encodeRune_one b (hascii b hb)
  refine ⟨hsplit, ?_, ?_⟩
  · rw [hsplit, List.length_map]
  · intro t ht
    rw [hsplit, List.mem_map] at ht
    obtain ⟨b, _, rfl⟩ := ht
    rfl

/-- Witness of C13 (amended) on the text space, newline, newline, space. -/
theorem splitKeepSpaces_separators_witness :
    (∀ b ∈ ([0x20, 0x0A, 0x0A, 0x20] : GoString), b = 0x20 ∨ b = 0x0A) ∧
    splitKeepSpaces [0x20, 0x0A, 0x0A, 0x20] =
      ([0x20, 0x0A, 0x0A, 0x20] : GoString).map (fun b => [b]) ∧
    (splitKeepSpaces [0x20, 0x0A, 0x0A, 0x20]).length = ([0x20, 0x0A, 0x0A, 0x20] : GoString).length ∧
    ∀ t ∈ splitKeepSpaces [0x20, 0x0A, 0x0A, 0x20], t.length = 1 :=
  ⟨by simp, splitKeepSpaces_separators [0x20, 0x0A, 0x0A, 0x20] (by simp)⟩

/-! ## Persistence: loading into a model -/

theorem ReadNgrams_merges (ty : GobTypes) (mg : MarkovGenerator) (P : Ngram) (ord : KeyOrder P)
    (fs : FileSystem) (path : GoString) (hfile : fs.files path = some (gobEncode ty P ord))
    (hfit : (gobEncode ty P ord).length < 2 ^ 63) :
    ∃ m, ReadNgrams ty mg fs path = .ok { mg with Ngrams := m } ∧
      ∀ k, m.lookup k = if k ∈ P then P.lookup k else mg.Ngrams.lookup k := by
  refine ⟨(entriesOf P ord).foldl (fun m e => m.insert e.1 e.2) mg.Ngrams, ?_, ?_⟩
  · unfold ReadNgrams
    rw [hfile]
    simp only []
    rw [gobDecode_gobEncode ty P mg.Ngrams ord hfit]
  · exact fun k => lookup_decoded P mg.Ngrams ord k

/-- C14 (the code at the failing input): the model holds `{"a": ["b","b","c"]}`
and the file holds the table of `"the cat sat. the cat ran."`, in which `"a"` is
not a key.  After `ReadNgrams` the key `"a"` is still in the table of the model
with its old successors, next to the entries of the file: the table is not the
persisted one. -/
theorem ReadNgrams_keeps_stale_keys :
    str "a" ∉ modelCat.Ngrams ∧
    ∃ m, ReadNgrams typesNgram modelABBC diskCat (str "ngrams.gob") =
        .ok { modelABBC with Ngrams := m } ∧
      m.lookup (str "a") = some [str "b", str "b", str "c"] ∧
      m.lookup (str "the") = modelCat.Ngrams.lookup (str "the") ∧
      m ≠ modelCat.Ngrams := by
  have hno : str "a" ∉ modelCat.Ngrams := by decide
  obtain ⟨m, hread, hlook⟩ := ReadNgrams_merges typesNgram modelABBC modelCat.Ngrams orderCat
    diskCat (str "ngrams.gob") (by simp [diskCat, FileSystem.store]) (by decide)
  have ha : m.lookup (str "a") = some [str "b", str "b", str "c"] := by
    rw [hlook, if_neg hno]
    decide
  refine ⟨hno, m, hread, ha, ?_, ?_⟩
  · rw [hlook, if_pos (by decide)]
  · intro h
    rw [h] at ha
    exact absurd (Finmap.mem_of_lookup_eq_some ha) hno

/-- C15 (counterexample): on a truncated file and on an empty file `ReadNgrams`
returns no error to its caller: `log.Fatalf` ends the process, which no caller
can recover from. -/
theorem ReadNgrams_truncated_is_fatal :
    ReadNgrams typesNgram NewMarkovGenerator diskTruncated (str "ngrams.gob") =
      .error .fatalExit ∧
    ReadNgrams typesNgram NewMarkovGenerator (emptyDisk.store (str "ngrams.gob") [])
      (str "ngrams.gob") = .error .fatalExit ∧
    Fault.recoverable .fatalExit = false := by
  decide

/-- C15 (amended): for every byte sequence that fails to decode, `ReadNgrams`
does not return to its caller, neither an error nor a model: it ends the
process through `log.Fatalf`, so no partially built table is ever handed to the
caller as valid; whenever `ReadNgrams` returns a model, its table is the one the
decoder completed. -/
theorem ReadNgrams_decode_failure (ty : GobTypes) (mg : MarkovGenerator) (fs : FileSystem)
    (path : GoString) (buffer : List Byte) (hfile : fs.files path = some buffer) :
    (gobDecode ty mg.Ngrams buffer = none →
      ReadNgrams ty mg fs path = .error .fatalExit ∧ Fault.recoverable .fatalExit = false) ∧
    (∀ mg1, ReadNgrams ty mg fs path = .ok mg1 →
      gobDecode ty mg.Ngrams buffer = some mg1.Ngrams) := by
  unfold ReadNgrams
  rw [hfile]
  simp only []
  cases hdec : gobDecode ty mg.Ngrams buffer with
  | none => exact ⟨fun _ => ⟨rfl, rfl⟩, fun mg1 h => by simp at h⟩
  | some m =>
    refine ⟨fun h => by simp at h, fun mg1 h => ?_⟩
    simp only [Except.ok.injEq] at h
    rw [← h]

/-- Witness of C15 (amended) on the truncated file. -/
theorem ReadNgrams_decode_failure_witness :
    diskTruncated.files (str "ngrams.gob") =
      some ((gobEncode typesNgram tableABBC orderABBC).take 40) ∧
    gobDecode typesNgram NewMarkovGenerator.Ngrams
      ((gobEncode typesNgram tableABBC orderABBC).take 40) = none ∧
    ((gobDecode typesNgram NewMarkovGenerator.Ngrams
        ((gobEncode typesNgram tableABBC orderABBC).take 40) = none →
      ReadNgrams typesNgram NewMarkovGenerator diskTruncated (str "ngrams.gob") =
        .error .fatalExit ∧ Fault.recoverable .fatalExit = false) ∧
    (∀ mg1, ReadNgrams typesNgram NewMarkovGenerator diskTruncated (str "ngrams.gob") = .ok mg1 →
      gobDecode typesNgram NewMarkovGenerator.Ngrams
        ((gobEncode typesNgram tableABBC orderABBC).take 40) = some mg1.Ngrams)) :=
  ⟨by simp [diskTruncated, FileSystem.store], by decide,
    ReadNgrams_decode_failure typesNgram NewMarkovGenerator diskTruncated (str "ngrams.gob")
      ((gobEncode typesNgram tableABBC orderABBC).take 40)
      (by simp [diskTruncated, FileSystem.store])⟩

/-! ## The unimplemented continuation -/

/-- C16: for every model, text and length, `Continue` returns no text: it ends
in the explicit `panic("Unimplemented")`, a signal of its own among the faults,
which a caller can recover from, unlike the fatal exit of `log.Fatal`. -/
theorem Continue_unimplemented (mg : MarkovGenerator) (text : GoString) (length : Int) :
    Continue mg text length = .error .unimplemented ∧
    (∀ out, Continue mg text length ≠ .ok out) ∧
    Fault.recoverable .unimplemented = true ∧
    Fault.unimplemented ≠ Fault.fatalExit := by
  refine ⟨rfl, ?_, rfl, by decide⟩
  intro out h
  unfold Continue at h
  exact absurd h (by simp)

/-! ## Generator: the walk and the weights -/

theorem walkLoop_chain (m : Ngram) (rnd : Nat → Nat) :
    ∀ (n i : Nat) (c : GoString),
      List.Chain (fun a b => b ∈ m.at a) c (walkLoop m rnd n i c) := by
  intro n
  induction n with
  | zero => intro i c; exact List.Chain.nil
  | succ n ih =>
    intro i c
    unfold walkLoop
    by_cases h : (m.at c).length = 0
    · simp only [h, if_true]
      exact List.Chain.nil
    · simp only [h, if_false]
      refine List.Chain.cons ?_ (ih _ _)
      exact getD_mem_of_lt _ _ (Nat.mod_lt _ (Nat.pos_of_ne_zero h))

/-- C17: for every non-empty table, every length and every sequence of random
choices, the tokens that `GenerateText` concatenates are a walk in the table:
the first is a key of the table and every later one is an element of the
successor list of the token just before it. -/
theorem GenerateText_walk (mg : MarkovGenerator) (ord : KeyOrder mg.Ngrams) (rnd : Nat → Nat)
    (length : Int) (hne : mg.Ngrams ≠ ∅) :
    ∃ start steps,
      generatedTokens mg ord rnd length = .ok (start :: steps) ∧
      GenerateText mg ord rnd length = .ok (start :: steps).flatten ∧
      start ∈ mg.Ngrams ∧
      List.Chain (fun a b => b ∈ mg.Ngrams.at a) start steps := by
  obtain ⟨hkey, hmem⟩ := getRandomKey_ok mg.Ngrams ord (rnd 0) hne
  have htoks : generatedTokens mg ord rnd length =
      .ok (ord.keys.getD (rnd 0 % ord.keys.length) [] ::
        walkLoop mg.Ngrams rnd length.toNat 0 (ord.keys.getD (rnd 0 % ord.keys.length) [])) := by
    unfold generatedTokens
    rw [hkey]
  refine ⟨_, _, htoks, ?_, hmem, walkLoop_chain mg.Ngrams rnd _ _ _⟩
  rw [GenerateText_eq, htoks]
  rfl

/-- Witness of C17 on the table of `"the cat sat. the cat ran."` with 6 steps. -/
theorem GenerateText_walk_witness :
    modelCat.Ngrams ≠ ∅ ∧
    ∃ start steps,
      generatedTokens modelCat orderCat (fun n => 3 * n + 2) 6 = .ok (start :: steps) ∧
      GenerateText modelCat orderCat (fun n => 3 * n + 2) 6 = .ok (start :: steps).flatten ∧
      start ∈ modelCat.Ngrams ∧
      List.Chain (fun a b => b ∈ modelCat.Ngrams.at a) start steps :=
  ⟨by decide, GenerateText_walk modelCat orderCat (fun n => 3 * n + 2) 6 (by decide)⟩

theorem count_eq_filter_range (l : List GoString) (t : GoString) :
    ((List.range l.length).filter (fun r => decide (l.getD r [] = t))).length = l.count t := by
  have hl : l = (List.range l.length).map (fun r => l.getD r []) := by
    apply List.ext_getElem
    · simp
    · intro i h1 h2
      simp [List.getD_eq_getElem?_getD, List.getElem?_eq_getElem h1]
  conv_rhs => rw [hl]
  rw [List.count, List.countP_map, List.countP_eq_length_filter]
  congr 1
  apply List.filter_congr
  intro r _
  simp only [Function.comp_apply]
  generalize l.getD r [] = x
  by_cases h : x = t <;> simp [h]

theorem generateLoop_one (m : Ngram) (rnd : Nat → Nat) (cur : GoString) (h : m.at cur ≠ []) :
    generateLoop m rnd 1 0 cur [] = .ok ((m.at cur).getD (rnd 1 % (m.at cur).length) []) := by
  have hlen : ¬ (m.at cur).length = 0 := fun h0 => h (List.length_eq_zero.1 h0)
  simp only [generateLoop, hlen, if_false, Intn, List.nil_append]

/-- C18: for every current token with a non-empty successor list `L` and every
token `t`, the number of indices `r` in `[0, len(L))` for which one step of the
loop of `GenerateText`, drawing `r`, selects `t` is the number of occurrences of
`t` in `L`. -/
theorem step_selection_count (m : Ngram) (cur t : GoString) (hL : m.at cur ≠ []) :
    ((List.range (m.at cur).length).filter
        (fun r => decide (generateLoop m (fun _ => r) 1 0 cur [] = .ok t))).length =
      (m.at cur).count t := by
  rw [← count_eq_filter_range]
  congr 1
  apply List.filter_congr
  intro r hr
  rw [List.mem_range] at hr
  rw [generateLoop_one m _ cur hL, Nat.mod_eq_of_lt hr]
  simp

/-- Witness of C18: with the table `{"a": ["b","b","c"]}` and the current token
`"a"`, two of the three indices select `"b"` and one selects `"c"`. -/
theorem step_selection_count_witness :
    tableABBC.at (str "a") ≠ [] ∧
    (tableABBC.at (str "a")).length = 3 ∧
    (((List.range (tableABBC.at (str "a")).length).filter
        (fun r => decide (generateLoop tableABBC (fun _ => r) 1 0 (str "a") [] = .ok (str "b")))).length =
      (tableABBC.at (str "a")).count (str "b") ∧
      (tableABBC.at (str "a")).count (str "b") = 2) ∧
    (((List.range (tableABBC.at (str "a")).length).filter
        (fun r => decide (generateLoop tableABBC (fun _ => r) 1 0 (str "a") [] = .ok (str "c")))).length =
      (tableABBC.at (str "a")).count (str "c") ∧
      (tableABBC.at (str "a")).count (str "c") = 1) :=
  ⟨by decide, by decide,
    ⟨step_selection_count tableABBC (str "a") (str "b") (by decide), by decide⟩,
    ⟨step_selection_count tableABBC (str "a") (str "c") (by decide), by decide⟩⟩

/-! ## Tables made by the builder -/

theorem NoEmptyList.buildStep {m : Ngram} (h : NoEmptyList m) (words : List GoString) (n : Nat) :
    NoEmptyList (buildStep words m n) := by
  intro k v hk
  rw [lookup_buildStep] at hk
  by_cases hkey : k = words.getD n []
  · rw [if_pos hkey, Option.some.injEq] at hk
    rw [← hk]
    simp
  · rw [if_neg hkey] at hk
    exact h k v hk

theorem NoEmptyList.buildIter {m : Ngram} (h : NoEmptyList m) (words : List GoString) :
    ∀ n, NoEmptyList (buildIter words m n) := by
  intro n
  induction n with
  | zero => simpa [Mgo.buildIter] using h
  | succ n ih =>
    rw [buildIter_succ]
    exact ih.buildStep words n

theorem mem_buildLoop (words : List GoString) (m : Ngram) (k : GoString) :
    k ∈ buildLoop words m ↔ k ∈ m ∨ k ∈ words.take (words.length - 1) := by
  have hl : (buildLoop words m).lookup k =
      if k ∈ words.take (words.length - 1) then
        some (m.at k ++ followersUpTo words k (words.length - 1))
      else m.lookup k :=
    lookup_buildIter words m k (words.length - 1) (Nat.sub_le _ _)
  rw [← Finmap.lookup_isSome, hl, ← Finmap.lookup_isSome]
  by_cases hk : k ∈ words.take (words.length - 1)
  · simp [hk]
  · simp [hk]

theorem BuildNgrams_ok {fuel : Nat} {mg mg1 : MarkovGenerator} {strategy : SplitStrategy}
    {N : Int} (h : BuildNgrams fuel mg strategy N = .ok mg1) :
    ∃ words, tokenize fuel mg.SourceText strategy N = .ok words ∧
      mg1.Ngrams = buildLoop words mg.Ngrams := by
  unfold BuildNgrams at h
  cases htok : tokenize fuel mg.SourceText strategy N with
  | error e => rw [htok] at h; simp at h
  | ok words =>
    rw [htok] at h
    simp only [Except.ok.injEq] at h
    exact ⟨words, rfl, by rw [← h]⟩

theorem Reachable.noEmptyList {m : Ngram} (h : Reachable m) : NoEmptyList m := by
  induction h with
  | new =>
    intro k v hk
    have : (∅ : Ngram).lookup k = some v := hk
    rw [Finmap.lookup_empty] at this
    exact absurd this (by simp)
  | build fuel mg mg1 strategy N _ hbuild ih =>
    obtain ⟨words, _, hm⟩ := BuildNgrams_ok hbuild
    rw [hm]
    exact ih.buildIter words (words.length - 1)

theorem at_eq_nil_iff {m : Ngram} (h : NoEmptyList m) (c : GoString) :
    m.at c = [] ↔ c ∉ m := by
  constructor
  · intro hnil hmem
    obtain ⟨v, hv⟩ := Finmap.mem_iff.1 hmem
    have : m.at c = v := by simp [Ngram.at, hv]
    exact h c v hv (this ▸ hnil)
  · intro hno
    simp [Ngram.at, Finmap.lookup_eq_none.2 hno]

/-- C19: every table reachable from the empty table of `NewMarkovGenerator` by
calls of `BuildNgrams` has a non-empty successor list at every key; a further
build adds as keys exactly the tokens of its sequence other than the one at the
last position; and a walk in such a table reaches a dead end only at a token
that is not a key of the table. -/
theorem reachable_table_keys (m : Ngram) (h : Reachable m) :
    (∀ k, k ∈ m → m.at k ≠ []) ∧
    (∀ (fuel : Nat) (text : GoString) (strategy : SplitStrategy) (N : Int)
        (mg1 : MarkovGenerator),
      BuildNgrams fuel { Ngrams := m, SourceText := text } strategy N = .ok mg1 →
      ∃ words, tokenize fuel text strategy N = .ok words ∧
        ∀ k, k ∈ mg1.Ngrams ↔ k ∈ m ∨ k ∈ words.take (words.length - 1)) ∧
    (∀ (rnd : Nat → Nat) (i : Nat) (start : GoString) (d : Nat),
      DeadEndAt m rnd i start d → ∃ c, chainFrom m rnd d i start = some c ∧ c ∉ m) := by
  have hinv := h.noEmptyList
  refine ⟨?_, ?_, ?_⟩
  · intro k hk hnil
    exact (at_eq_nil_iff hinv k).1 hnil hk
  · intro fuel text strategy N mg1 hbuild
    obtain ⟨words, htok, hm⟩ := BuildNgrams_ok hbuild
    refine ⟨words, htok, fun k => ?_⟩
    rw [hm]
    exact mem_buildLoop words m k
  · intro rnd i start d hdead
    obtain ⟨c, hc, hnil⟩ := hdead
    exact ⟨c, hc, (at_eq_nil_iff hinv c).1 hnil⟩

/-- Witness of C19: the table built with `SplitBySpaces` from
`"the cat sat. the cat ran."` is reachable. -/
theorem reachable_table_keys_witness :
    Reachable modelCat.Ngrams ∧
    (∀ k, k ∈ modelCat.Ngrams → modelCat.Ngrams.at k ≠ []) ∧
    (∀ (fuel : Nat) (text : GoString) (strategy : SplitStrategy) (N : Int)
        (mg1 : MarkovGenerator),
      BuildNgrams fuel { Ngrams := modelCat.Ngrams, SourceText := text } strategy N = .ok mg1 →
      ∃ words, tokenize fuel text strategy N = .ok words ∧
        ∀ k, k ∈ mg1.Ngrams ↔ k ∈ modelCat.Ngrams ∨ k ∈ words.take (words.length - 1)) ∧
    (∀ (rnd : Nat → Nat) (i : Nat) (start : GoString) (d : Nat),
      DeadEndAt modelCat.Ngrams rnd i start d →
        ∃ c, chainFrom modelCat.Ngrams rnd d i start = some c ∧ c ∉ modelCat.Ngrams) :=
  ⟨Reachable.build 0 { Ngrams := ∅, SourceText := str "the cat sat. the cat ran." } modelCat
      SplitBySpaces 0 Reachable.new (by decide),
    reachable_table_keys modelCat.Ngrams
      (Reachable.build 0 { Ngrams := ∅, SourceText := str "the cat sat. the cat ran." } modelCat
        SplitBySpaces 0 Reachable.new (by decide))⟩

end Mgo
